import Mathlib

/-! js-util: `escapeHTML`, `findCheckedRadioButton`, `cloneElement`

A shallow embedding of `util.js` and the properties of its three functions.

Modelling conventions.

* A JavaScript string is a `List Char` (`JSString`).  The two regular expressions of the file
  carry no `u` flag and only test the characters `& < > " '` and the class `\s`; neither half of a
  surrogate pair belongs to any of them, so working on scalar values instead of UTF-16 code units
  does not change which positions match.
* `null` / `undefined` are `none`; a value is "truthy" when it is present and not the empty string.
* A DOM node is either a text node or an element with a tag, an ordered attribute list and an
  ordered list of child nodes.  `getAttribute`, `setAttribute` and `removeAttribute` act on the
  first attribute with the given name, as the DOM standard prescribes.
* Mutable state (`renamedIDs`, the attributes of the clone) is passed explicitly.  In the tree
  model a tree is a value and `cloneNode(true)` returns it; the store model at the end of the
  definitions (`Store`, `cloneElementIn`) keeps the nodes in a store and lets every DOM call read
  and write it, to state that the source tree is not written to.
* An element may carry more than one attribute of the same name (built with `setAttributeNS`);
  `removeAttribute('id')` then removes the first and leaves the others.  The statements hold for
  every attribute list; where a claim needs the root to carry at most one attribute named `id`
  (`atMostOneId`, implied by pairwise distinct names, `distinctNames`), the statement says so.
-/

set_option autoImplicit false

/-- A JavaScript string, as the sequence of its characters. -/
abbrev JSString := List Char

/-- The character `"` (U+0022). -/
def dquote : Char := Char.ofNat 34

/-- The character `'` (U+0027). -/
def squote : Char := Char.ofNat 39

/-! ## `escapeHTML` -/

/-- The frozen object `ESCAPE_MAP`: its five own properties, in source order. -/
def ESCAPE_MAP : List (Char × JSString) :=
  [ ('&', "&amp;".toList),
    ('<', "&lt;".toList),
    ('>', "&gt;".toList),
    (dquote, "&quot;".toList),
    (squote, "&#39;".toList) ]

/-- The character class of the regular expression `/[&<>"']/g`. -/
def reservedClass (c : Char) : Bool :=
  c == '&' || c == '<' || c == '>' || c == dquote || c == squote

/-- The call `str.replace(/[...]/g, fn)` for a one-character class: every character of the class
is replaced by the string the callback returns for it, every other character is copied. -/
def replaceClass (cls : Char → Bool) (fn : Char → JSString) : JSString → JSString
  | [] => []
  | c :: rest =>
    if cls c then fn c ++ replaceClass cls fn rest else c :: replaceClass cls fn rest

/-- The property read `ESCAPE_MAP[match]`, coerced to a string as `replace` does with the value
a callback returns (`undefined` becomes the text "undefined"). -/
def escapeLookup (m : Char) : JSString :=
  (ESCAPE_MAP.lookup m).getD "undefined".toList

/-- The function `escapeHTML(input)` on a string input. -/
def escapeHTML (input : JSString) : JSString :=
  replaceClass reservedClass escapeLookup input

/-- The entity sequence that starts a string, if any, with the character it stands for and its
length. -/
def entityAt (s : JSString) : Option (Char × Nat) :=
  if "&amp;".toList.isPrefixOf s then some ('&', 5)
  else if "&lt;".toList.isPrefixOf s then some ('<', 4)
  else if "&gt;".toList.isPrefixOf s then some ('>', 4)
  else if "&quot;".toList.isPrefixOf s then some (dquote, 6)
  else if "&#39;".toList.isPrefixOf s then some (squote, 5)
  else none

/-- One pass from left to right over the string; `skip` counts the characters of an entity
already replaced that are still to be passed over. -/
def decodeFrom : Nat → JSString → JSString
  | _, [] => []
  | skip + 1, _ :: rest => decodeFrom skip rest
  | 0, c :: rest =>
    match entityAt (c :: rest) with
    | some (d, n) => d :: decodeFrom (n - 1) rest
    | none => c :: decodeFrom 0 rest

/-- Entity-for-entity decoding, as the specification words it: one pass from left to right in
which each of the sequences `&amp; &lt; &gt; &quot; &#39;` is replaced by the character it
stands for and every other character is kept. -/
def decodeEntities (s : JSString) : JSString :=
  decodeFrom 0 s

/-- The image of one character under the map of the specification:
`& -> &amp;`, `< -> &lt;`, `> -> &gt;`, `" -> &quot;`, `' -> &#39;`, any other character to
itself. -/
def entityOf (c : Char) : JSString :=
  if c = '&' then "&amp;".toList
  else if c = '<' then "&lt;".toList
  else if c = '>' then "&gt;".toList
  else if c = dquote then "&quot;".toList
  else if c = squote then "&#39;".toList
  else [c]

/-- The reference definition of the specification: the images of the characters, concatenated in
order. -/
def escapeReference (s : JSString) : JSString :=
  (s.map entityOf).flatten

/-- The five entity sequences. -/
def entitySequences : List JSString :=
  ["&amp;".toList, "&lt;".toList, "&gt;".toList, "&quot;".toList, "&#39;".toList]

/-! ## `findCheckedRadioButton` -/

/-- A button-like object: the two properties the function reads. -/
structure Button where
  checked : Bool
  value : JSString
deriving DecidableEq, Repr

/-- The function `findCheckedRadioButton(buttons)`: the `for ... of` loop returns from inside at
the first checked button; falling off the end returns `undefined` (`none`). -/
def findCheckedRadioButton : List Button → Option JSString
  | [] => none
  | button :: rest =>
    if button.checked then some button.value else findCheckedRadioButton rest

/-! ## The DOM fragment used by `cloneElement` -/

/-- An attribute: its name and its value. -/
abbrev Attr := JSString × JSString

/-- A DOM node: a text node, or an element with its tag name, its attribute list and its child
nodes, in document order. -/
inductive Node where
  | text (data : JSString)
  | element (tag : JSString) (attrs : List Attr) (childNodes : List Node)
deriving Repr

/-- The method `getAttribute(name)` on an attribute list: the value of the first attribute of
that name, `null` (`none`) when there is none. -/
def getAttribute : List Attr → JSString → Option JSString
  | [], _ => none
  | (n, v) :: rest, name => if n = name then some v else getAttribute rest name

/-- The method `setAttribute(name, value)`: the first attribute of that name gets the value; when
there is none, a new attribute is appended. -/
def setAttribute : List Attr → JSString → JSString → List Attr
  | [], name, value => [(name, value)]
  | (n, v) :: rest, name, value =>
    if n = name then (n, value) :: rest else (n, v) :: setAttribute rest name value

/-- The method `removeAttribute(name)`: the first attribute of that name is removed. -/
def removeAttribute : List Attr → JSString → List Attr
  | [], _ => []
  | (n, v) :: rest, name => if n = name then rest else (n, v) :: removeAttribute rest name

/-- The method `renamedIDs.indexOf(id)`: the index of the first equal entry, `-1` when there is
none. -/
def indexOf : List JSString → JSString → Int
  | [], _ => -1
  | y :: ys, x => if y = x then 0 else if indexOf ys x = -1 then -1 else indexOf ys x + 1

/-- The class `\s` of a JavaScript regular expression without the `u` flag: the white space
characters (TAB, VT, FF, SP, NBSP, ZWNBSP and the category Zs) and the line terminators (LF, CR,
LS, PS). -/
def isWhiteSpace (c : Char) : Bool :=
  c.toNat == 9 || c.toNat == 10 || c.toNat == 11 || c.toNat == 12 || c.toNat == 13 ||
  c.toNat == 32 || c.toNat == 160 || c.toNat == 5760 ||
  (8192 ≤ c.toNat && c.toNat ≤ 8202) ||
  c.toNat == 8232 || c.toNat == 8233 || c.toNat == 8239 || c.toNat == 8287 ||
  c.toNat == 12288 || c.toNat == 65279

/-- The class `\S`. -/
def notWhiteSpace (c : Char) : Bool := !isWhiteSpace c

/-- The attribute names the function reads and writes. -/
def idAttr : JSString := "id".toList

/-- The attribute name `for`. -/
def forAttr : JSString := "for".toList

/-- The constant `idListAttribs`. -/
def idListAttribs : List JSString :=
  ["aria-controls".toList, "aria-describedby".toList, "aria-labelledby".toList]

/-- The constant `selectorAttribs`. -/
def selectorAttribs : List JSString :=
  ["data-parent".toList, "data-target".toList, "href".toList]

/-- One attempt to match `spaceSeparated = /(?:^|\s+)(\S+)/` at a position of the subject.
`atStart` says whether the position is index 0, where `^` holds; `s` is the subject from the
position on.  The result is capture group 1 and the subject after the match.

The first alternative is `^` followed by the longest run of `\S`.  The second is the longest run
of `\s`, at least one, followed by the longest run of `\S`, at least one; giving back characters
of the `\s` run cannot help, since `\S+` would then have to start on a white space character.
Nothing follows `\S+` in the pattern, so its greedy match is the longest run. -/
def matchSpaceSeparated (atStart : Bool) (s : JSString) : Option (JSString × JSString) :=
  if atStart && !(s.takeWhile notWhiteSpace).isEmpty then
    some (s.takeWhile notWhiteSpace, s.dropWhile notWhiteSpace)
  else if !(s.takeWhile isWhiteSpace).isEmpty &&
      !((s.dropWhile isWhiteSpace).takeWhile notWhiteSpace).isEmpty then
    some ((s.dropWhile isWhiteSpace).takeWhile notWhiteSpace,
      (s.dropWhile isWhiteSpace).dropWhile notWhiteSpace)
  else none

/-- The call `attribValue.replace(spaceSeparated, replacer)` with the global flag, from a
position on: where the pattern matches, the replacement is written and the search goes on after
the match (which is never empty); where it does not, the character is copied and the search
moves one position on.  `fuel` bounds the number of positions visited. -/
def replaceFrom (replacer : JSString → JSString) : Nat → Bool → JSString → JSString
  | 0, _, s => s
  | fuel + 1, atStart, s =>
    match matchSpaceSeparated atStart s with
    | some (id, rest) => replacer id ++ replaceFrom replacer fuel false rest
    | none =>
      match s with
      | [] => []
      | c :: rest => c :: replaceFrom replacer fuel false rest

/-- The call `attribValue.replace(spaceSeparated, replacer)`; the callback is given capture
group 1 (its first argument, the whole match, is not used by `replaceID`). -/
def replaceSpaceSeparated (replacer : JSString → JSString) (attribValue : JSString) : JSString :=
  replaceFrom replacer (attribValue.length + 1) true attribValue

/-- The closure `replaceID(match, id)`. -/
def replaceID (renamedIDs : List JSString) (idPrefix : JSString) (id : JSString) : JSString :=
  if indexOf renamedIDs id ≠ -1 then ' ' :: (idPrefix ++ id) else ' ' :: id

/-- The body of `rename` on the attributes of one element: the new attribute list and the new
value of `renamedIDs`. -/
def renameAttrs (idPrefix : JSString) (attrs : List Attr) (renamedIDs : List JSString) :
    List Attr × List JSString :=
  match getAttribute attrs idAttr with
  | some id =>
    if id ≠ [] then (setAttribute attrs idAttr (idPrefix ++ id), renamedIDs ++ [id])
    else (attrs, renamedIDs)
  | none => (attrs, renamedIDs)

mutual
/-- The closure `rename(element)`: the renamed node and the new value of `renamedIDs`.  A text
node is not among the `children` of its parent and is passed over. -/
def rename (idPrefix : JSString) : Node → List JSString → Node × List JSString
  | .text data, renamedIDs => (.text data, renamedIDs)
  | .element tag attrs childNodes, renamedIDs =>
    let own := renameAttrs idPrefix attrs renamedIDs
    let below := renameChildren idPrefix childNodes own.2
    (.element tag own.1 below.1, below.2)
/-- The loop `for (let child of element.children) rename(child)`. -/
def renameChildren (idPrefix : JSString) : List Node → List JSString → List Node × List JSString
  | [], renamedIDs => ([], renamedIDs)
  | child :: rest, renamedIDs =>
    let first := rename idPrefix child renamedIDs
    let others := renameChildren idPrefix rest first.2
    (first.1 :: others.1, others.2)
end

/-- The first statement of `fixIDReferences`: the `for` attribute. -/
def fixFor (idPrefix : JSString) (renamedIDs : List JSString) (attrs : List Attr) : List Attr :=
  match getAttribute attrs forAttr with
  | some attribValue =>
    if attribValue ≠ [] ∧ indexOf renamedIDs attribValue ≠ -1 then
      setAttribute attrs forAttr (idPrefix ++ attribValue)
    else attrs
  | none => attrs

/-- The body of the loop over `selectorAttribs`. -/
def fixSelector (idPrefix : JSString) (renamedIDs : List JSString) (attrs : List Attr)
    (attribName : JSString) : List Attr :=
  match getAttribute attrs attribName with
  | some attribValue =>
    if attribValue ≠ [] ∧ attribValue.head? = some '#' then
      if indexOf renamedIDs (attribValue.drop 1) ≠ -1 then
        setAttribute attrs attribName ('#' :: (idPrefix ++ attribValue.drop 1))
      else attrs
    else attrs
  | none => attrs

/-- The body of the loop over `idListAttribs`. -/
def fixIdList (idPrefix : JSString) (renamedIDs : List JSString) (attrs : List Attr)
    (attribName : JSString) : List Attr :=
  match getAttribute attrs attribName with
  | some attribValue =>
    if attribValue ≠ [] then
      setAttribute attrs attribName
        (replaceSpaceSeparated (replaceID renamedIDs idPrefix) attribValue)
    else attrs
  | none => attrs

/-- The statements of `fixIDReferences` that act on the element itself, in source order. -/
def fixAttrs (idPrefix : JSString) (renamedIDs : List JSString) (attrs : List Attr) : List Attr :=
  idListAttribs.foldl (fixIdList idPrefix renamedIDs)
    (selectorAttribs.foldl (fixSelector idPrefix renamedIDs) (fixFor idPrefix renamedIDs attrs))

mutual
/-- The closure `fixIDReferences(element)`, run when `renamedIDs` is complete.  A text node is
not among the `children` of its parent and is passed over. -/
def fixIDReferences (idPrefix : JSString) (renamedIDs : List JSString) : Node → Node
  | .text data => .text data
  | .element tag attrs childNodes =>
    .element tag (fixAttrs idPrefix renamedIDs attrs)
      (fixIDReferencesChildren idPrefix renamedIDs childNodes)
/-- The loop `for (let child of element.children) fixIDReferences(child)`. -/
def fixIDReferencesChildren (idPrefix : JSString) (renamedIDs : List JSString) :
    List Node → List Node
  | [] => []
  | child :: rest =>
    fixIDReferences idPrefix renamedIDs child ::
      fixIDReferencesChildren idPrefix renamedIDs rest
end

/-- The call `element.cloneNode(true)`: a deep copy.  Trees are values here, so the copy is the
tree itself and every later step builds new trees from it. -/
def cloneNode (element : Node) : Node := element

/-- The statement `if (renameRoot === false) clone.removeAttribute('id')`. -/
def stripRoot (renameRoot : Bool) : Node → Node
  | .text data => .text data
  | .element tag attrs childNodes =>
    if renameRoot = false then .element tag (removeAttribute attrs idAttr) childNodes
    else .element tag attrs childNodes

/-- The function `cloneElement(element, idPrefix, renameRoot)`.  On a node that is not an
element the first attribute method called does not exist and the call throws (`none`). -/
def cloneElement (element : Node) (idPrefix : JSString) (renameRoot : Bool) : Option Node :=
  match element with
  | .text _ => none
  | .element tag attrs childNodes =>
    let clone := stripRoot renameRoot (cloneNode (.element tag attrs childNodes))
    let renamed := rename idPrefix clone []
    some (fixIDReferences idPrefix renamed.2 renamed.1)

/-! ## Vocabulary of the statements about `cloneElement` -/

/-- The child nodes of a node (none for a text node). -/
def Node.kids : Node → List Node
  | .text _ => []
  | .element _ _ childNodes => childNodes

/-- The node at a tree position: a position is the list of child indices on the way down from
the root. -/
def nodeAt : List Nat → Node → Option Node
  | [], n => some n
  | i :: rest, n =>
    match n.kids[i]? with
    | some child => nodeAt rest child
    | none => none

/-- The value of an attribute of the element at a position; `none` when the position holds no
element or the element has no such attribute. -/
def attrAt (root : Node) (pos : List Nat) (name : JSString) : Option JSString :=
  match nodeAt pos root with
  | some (.element _ attrs _) => getAttribute attrs name
  | _ => none

/-- Whether a position of the tree holds an element. -/
def elementAt (root : Node) (pos : List Nat) : Bool :=
  match nodeAt pos root with
  | some (.element _ _ _) => true
  | _ => false

/-- The string `v` is the original id of an element renamed in the cloned subtree: some element
of the tree carries the non-empty id `v`, the root counting only when `renameRoot` is true. -/
def IsRenamedId (root : Node) (renameRoot : Bool) (v : JSString) : Prop :=
  ∃ pos, (pos = [] → renameRoot = true) ∧ attrAt root pos idAttr = some v ∧ v ≠ []

/-- The white-space-separated tokens of a string, scanning from the left; `cur` is the token
being read. -/
def tokensFrom : JSString → JSString → List JSString
  | cur, [] => if cur = [] then [] else [cur]
  | cur, c :: rest =>
    if isWhiteSpace c then
      if cur = [] then tokensFrom [] rest else cur :: tokensFrom [] rest
    else tokensFrom (cur ++ [c]) rest

/-- The white-space-separated tokens of a string: its maximal runs of characters that are not
white space, in order. -/
def tokens (s : JSString) : List JSString := tokensFrom [] s

/-- The trailing white space of a string: its longest suffix of white space characters. -/
def trailingWhiteSpace (s : JSString) : JSString :=
  (s.reverse.takeWhile isWhiteSpace).reverse

/-- The element tree of the worked example:
`<div id="x"><label for="x">t</label><span id="y" aria-controls="x y">s</span></div>`. -/
def exampleTree : Node :=
  .element "div".toList [(idAttr, "x".toList)]
    [ .element "label".toList [(forAttr, "x".toList)] [.text "t".toList],
      .element "span".toList [(idAttr, "y".toList), ("aria-controls".toList, "x y".toList)]
        [.text "s".toList] ]

/-! ## Auxiliary descriptions of the two tree walks -/

/-- The ids one element adds to `renamedIDs`: its id, when it has a non-empty one. -/
def ownIds (attrs : List Attr) : List JSString :=
  match getAttribute attrs idAttr with
  | some id => if id ≠ [] then [id] else []
  | none => []

mutual
/-- The non-empty ids of the elements of a tree, in pre-order. -/
def subtreeIds : Node → List JSString
  | .text _ => []
  | .element _ attrs childNodes => ownIds attrs ++ subtreeIdsList childNodes
/-- The non-empty ids of the elements of a forest, in pre-order. -/
def subtreeIdsList : List Node → List JSString
  | [] => []
  | child :: rest => subtreeIds child ++ subtreeIdsList rest
end

mutual
/-- The tree with a function applied to the attribute list of every element. -/
def mapAttrs (f : List Attr → List Attr) : Node → Node
  | .text data => .text data
  | .element tag attrs childNodes => .element tag (f attrs) (mapAttrsList f childNodes)
/-- The forest with a function applied to the attribute list of every element. -/
def mapAttrsList (f : List Attr → List Attr) : List Node → List Node
  | [] => []
  | child :: rest => mapAttrs f child :: mapAttrsList f rest
end

/-- The attribute names of an element are pairwise distinct, as in every tree built by an HTML
parser or through `setAttribute`. -/
def distinctNames (attrs : List Attr) : Prop := (attrs.map Prod.fst).Nodup

instance (attrs : List Attr) : Decidable (distinctNames attrs) := by
  unfold distinctNames; infer_instance

/-- What the two walks together do to the value of one attribute of an element, given the final
value `R` of `renamedIDs`. -/
def rewriteValue (idPrefix : JSString) (R : List JSString) (name v : JSString) : JSString :=
  if name = idAttr then (if v ≠ [] then idPrefix ++ v else v)
  else if name = forAttr then (if v ≠ [] ∧ v ∈ R then idPrefix ++ v else v)
  else if name ∈ selectorAttribs then
    (if v.head? = some '#' ∧ v.drop 1 ∈ R then '#' :: (idPrefix ++ v.drop 1) else v)
  else if name ∈ idListAttribs then replaceSpaceSeparated (replaceID R idPrefix) v
  else v

/-- A tree with a selector attribute: `<div id="x"><a href="#y"></a><span id="y"></span></div>`. -/
def selectorTree : Node :=
  .element "div".toList [(idAttr, "x".toList)]
    [ .element "a".toList [("href".toList, "#y".toList)] [],
      .element "span".toList [(idAttr, "y".toList)] [] ]

/-- The element with every `id` attribute taken off its root, as the specification words the
effect of `renameRoot = false`: "the root becomes anonymous". -/
def removeRootId : Node → Node
  | .text data => .text data
  | .element tag attrs childNodes =>
    .element tag (attrs.filter (fun a => decide (a.1 ≠ idAttr))) childNodes

/-- The tree of the worked example after `cloneElement(el, "p1-", true)`, as the code builds it:
`aria-controls` reads `" p1-x p1-y"`, with a space before the first token. -/
def exampleClone : Node :=
  .element "div".toList [(idAttr, "p1-x".toList)]
    [ .element "label".toList [(forAttr, "p1-x".toList)] [.text "t".toList],
      .element "span".toList
        [(idAttr, "p1-y".toList), ("aria-controls".toList, " p1-x p1-y".toList)]
        [.text "s".toList] ]

/-- A tree in which a descendant carries the same id as the root:
`<div id="x"><span id="x"></span><label for="x"></label></div>`. -/
def sharedIdTree : Node :=
  .element "div".toList [(idAttr, "x".toList)]
    [ .element "span".toList [(idAttr, "x".toList)] [],
      .element "label".toList [(forAttr, "x".toList)] [] ]

/-! ## The DOM as explicit state -/

/-- A node of the document as a cell of the store: whether it is an element, its tag name (for a
text node its data), its attributes and the store indices of its child nodes, in order. -/
structure Cell where
  isElement : Bool
  name : JSString
  attrs : List Attr
  kids : List Nat
deriving DecidableEq, Repr

/-- The store: the nodes that exist; a node is referred to by its index. -/
abbrev Store := List Cell

/-- A write to the attribute list of one node (what `setAttribute` and `removeAttribute` do to
the store); no other field and no other node changes. -/
def writeAttrs : Store → Nat → List Attr → Store
  | [], _, _ => []
  | c :: rest, 0, attrs => { c with attrs := attrs } :: rest
  | c :: rest, n + 1, attrs => c :: writeAttrs rest n attrs

/-- The call `node.cloneNode(true)` on the store: the children are copied first, in order, then
a new node with the copies as its children is allocated at the end of the store; the result is
the new store and the index of the copy.  `fuel` bounds the depth of the copied tree. -/
def cloneNodeIn : Nat → Store → Nat → Store × Nat
  | 0, σ, node =>
    match σ[node]? with
    | none => (σ, node)
    | some c => (σ ++ [{ c with kids := [] }], σ.length)
  | fuel + 1, σ, node =>
    match σ[node]? with
    | none => (σ, node)
    | some c =>
      let below := c.kids.foldl
        (fun (acc : Store × List Nat) kid =>
          ((cloneNodeIn fuel acc.1 kid).1, acc.2 ++ [(cloneNodeIn fuel acc.1 kid).2]))
        (σ, [])
      (below.1 ++ [{ c with kids := below.2 }], below.1.length)

/-- The pre-order walk over `element.children` shared by `rename` and `fixIDReferences`, on the
store: `body` is what the closure does to the attributes of the element itself, `s` the state it
threads (`renamedIDs` for `rename`).  The attributes are written to the visited node; a text
node is not among the `children` of its parent and is passed over.  `fuel` bounds the depth. -/
def walkIn {S : Type} (body : List Attr → S → List Attr × S) : Nat → Store → Nat → S → Store × S
  | 0, σ, _, s => (σ, s)
  | fuel + 1, σ, node, s =>
    match σ[node]? with
    | none => (σ, s)
    | some c =>
      if c.isElement then
        c.kids.foldl (fun (acc : Store × S) kid => walkIn body fuel acc.1 kid acc.2)
          (writeAttrs σ node (body c.attrs s).1, (body c.attrs s).2)
      else (σ, s)

/-- The closure `rename(element)` on the store. -/
def renameIn (idPrefix : JSString) (fuel : Nat) (σ : Store) (element : Nat)
    (renamedIDs : List JSString) : Store × List JSString :=
  walkIn (renameAttrs idPrefix) fuel σ element renamedIDs

/-- The closure `fixIDReferences(element)` on the store. -/
def fixIDReferencesIn (idPrefix : JSString) (renamedIDs : List JSString) (fuel : Nat)
    (σ : Store) (element : Nat) : Store :=
  (walkIn (fun attrs (_ : Unit) => (fixAttrs idPrefix renamedIDs attrs, ())) fuel σ element ()).1

/-- The statement `if (renameRoot === false) clone.removeAttribute('id')` on the store. -/
def stripRootIn (renameRoot : Bool) (σ : Store) (clone : Nat) : Store :=
  if renameRoot = false then
    match σ[clone]? with
    | some c => writeAttrs σ clone (removeAttribute c.attrs idAttr)
    | none => σ
  else σ

/-- The function `cloneElement(element, idPrefix, renameRoot)` on the store: the new store and
the index of the clone.  On a node that is not an element the call throws (`none`).  The depth
of a tree is at most the number of nodes of the store, which is the fuel given to each walk. -/
def cloneElementIn (σ : Store) (element : Nat) (idPrefix : JSString) (renameRoot : Bool) :
    Option (Store × Nat) :=
  match σ[element]? with
  | none => none
  | some c =>
    if c.isElement then
      let copy := cloneNodeIn σ.length σ element
      let σ1 := stripRootIn renameRoot copy.1 copy.2
      let renamed := renameIn idPrefix σ1.length σ1 copy.2 []
      some (fixIDReferencesIn idPrefix renamed.2 renamed.1.length renamed.1 copy.2, copy.2)
    else none

/-- The tree that hangs from a node of the store, read down to the depth `fuel`. -/
def treeOf : Nat → Store → Nat → Option Node
  | 0, _, _ => none
  | fuel + 1, σ, node =>
    match σ[node]? with
    | none => none
    | some c =>
      if c.isElement then
        (c.kids.foldr
          (fun kid acc =>
            match treeOf fuel σ kid, acc with
            | some n, some ns => some (n :: ns)
            | _, _ => none)
          (some [])).map (Node.element c.name c.attrs)
      else some (.text c.name)

/-- The later cells of a store only refer to later cells: the children of every node from the
index `n0` on have indices from `n0` on. -/
def Fresh (n0 : Nat) (σ : Store) : Prop :=
  ∀ i c, n0 ≤ i → σ[i]? = some c → ∀ k ∈ c.kids, n0 ≤ k

/-- A store that holds the tree of the worked example; its root is the node 4. -/
def exampleStore : Store :=
  [ ⟨false, "t".toList, [], []⟩,
    ⟨true, "label".toList, [(forAttr, "x".toList)], [0]⟩,
    ⟨false, "s".toList, [], []⟩,
    ⟨true, "span".toList, [(idAttr, "y".toList), ("aria-controls".toList, "x y".toList)], [2]⟩,
    ⟨true, "div".toList, [(idAttr, "x".toList)], [1, 3]⟩ ]

/-- The element carries at most one attribute named `id`. -/
def atMostOneId (attrs : List Attr) : Prop := (attrs.map Prod.fst).count idAttr ≤ 1

instance (attrs : List Attr) : Decidable (atMostOneId attrs) := by
  unfold atMostOneId; infer_instance

/-- The string `v` is an id renamed in the cloned subtree: when the rename pass starts, that is
after `clone.removeAttribute('id')` has run for `renameRoot = false`, some element of the clone
carries the non-empty id `v`.  For an element other than the root this is its original id; for
the root it is its original id when `renameRoot` is true and, when `renameRoot` is false, the id
still found on it once its first attribute named `id` is removed. -/
def IsRenamedAtStart (root : Node) (renameRoot : Bool) (v : JSString) : Prop :=
  ∃ pos, attrAt (stripRoot renameRoot root) pos idAttr = some v ∧ v ≠ []

/-- A tree whose root carries two attributes named `id`, with references to the second:
`<div id="b" id="a"><label for="a"></label><a href="#a"></a><span aria-controls="a"></span></div>`
(such an element is built with `setAttribute` and `setAttributeNS`). -/
def twoIdTree : Node :=
  .element "div".toList [(idAttr, "b".toList), (idAttr, "a".toList)]
    [ .element "label".toList [(forAttr, "a".toList)] [],
      .element "a".toList [("href".toList, "#a".toList)] [],
      .element "span".toList [("aria-controls".toList, "a".toList)] [] ]

/-! ## Theorems: `escapeHTML` -/

theorem reservedClass_iff (c : Char) :
    reservedClass c = true ↔ c = '&' ∨ c = '<' ∨ c = '>' ∨ c = dquote ∨ c = squote := by
  simp [reservedClass, or_assoc]

theorem escapeLookup_eq_entityOf (c : Char) (h : reservedClass c = true) :
    escapeLookup c = entityOf c := by
  rcases (reservedClass_iff c).1 h with h | h | h | h | h <;> subst h <;> decide

theorem entityOf_of_not_reserved (c : Char) (h : reservedClass c = false) :
    entityOf c = [c] := by
  have h' : ¬ (c = '&' ∨ c = '<' ∨ c = '>' ∨ c = dquote ∨ c = squote) := by
    rw [← reservedClass_iff]; simp [h]
  simp only [not_or] at h'
  obtain ⟨h1, h2, h3, h4, h5⟩ := h'
  simp [entityOf, h1, h2, h3, h4, h5]

theorem escapeHTML_nil : escapeHTML [] = [] := rfl

theorem escapeHTML_cons (c : Char) (s : JSString) :
    escapeHTML (c :: s) = entityOf c ++ escapeHTML s := by
  cases h : reservedClass c
  · simp [escapeHTML, replaceClass, h, entityOf_of_not_reserved c h]
  · simp [escapeHTML, replaceClass, h, escapeLookup_eq_entityOf c h]

theorem escapeHTML_append (a b : JSString) :
    escapeHTML (a ++ b) = escapeHTML a ++ escapeHTML b := by
  induction a with
  | nil => simp [escapeHTML_nil]
  | cons c a ih => simp [escapeHTML_cons, ih]

theorem decodeEntities_cons_of_ne (c : Char) (rest : JSString) (h : c ≠ '&') :
    decodeEntities (c :: rest) = c :: decodeEntities rest := by
  have h' : ¬ ('&' = c) := fun e => h e.symm
  simp [decodeEntities, decodeFrom, entityAt, List.isPrefixOf, h']

theorem decodeEntities_entityOf_append (c : Char) (t : JSString) :
    decodeEntities (entityOf c ++ t) = c :: decodeEntities t := by
  cases h : reservedClass c
  · rw [entityOf_of_not_reserved c h]
    have hne : c ≠ '&' := by
      intro hc; subst hc; simp [reservedClass] at h
    simpa using decodeEntities_cons_of_ne c t hne
  · rcases (reservedClass_iff c).1 h with h | h | h | h | h <;> subst h <;>
      simp [decodeEntities, decodeFrom, entityAt, entityOf, List.isPrefixOf, dquote, squote]

/-- C1. Decoding `escapeHTML s` entity for entity gives back `s`, for every string `s`; hence
`escapeHTML` is injective. -/
theorem escapeHTML_roundtrip :
    (∀ s : JSString, decodeEntities (escapeHTML s) = s) ∧ Function.Injective escapeHTML := by
  have h : ∀ s : JSString, decodeEntities (escapeHTML s) = s := by
    intro s
    induction s with
    | nil => rfl
    | cons c s ih => rw [escapeHTML_cons, decodeEntities_entityOf_append, ih]
  exact ⟨h, fun a b hab => by rw [← h a, ← h b, hab]⟩

theorem entityOf_reserved_shape (c : Char) (h : reservedClass c = true) :
    ∃ tail, entityOf c = '&' :: tail ∧ '&' ∉ tail ∧ entityOf c ∈ entitySequences := by
  rcases (reservedClass_iff c).1 h with h | h | h | h | h <;> subst h
  · exact ⟨"amp;".toList, by decide, by decide, by decide⟩
  · exact ⟨"lt;".toList, by decide, by decide, by decide⟩
  · exact ⟨"gt;".toList, by decide, by decide, by decide⟩
  · exact ⟨"quot;".toList, by decide, by decide, by decide⟩
  · exact ⟨"#39;".toList, by decide, by decide, by decide⟩

theorem amp_split (X E a b : JSString) (hX : '&' ∉ X) (h : a ++ '&' :: b = X ++ E) :
    ∃ a2, a = X ++ a2 ∧ E = a2 ++ '&' :: b := by
  induction X generalizing a with
  | nil => exact ⟨a, rfl, by simpa using h.symm⟩
  | cons x X ih =>
    cases a with
    | nil =>
      simp only [List.nil_append, List.cons_append, List.cons.injEq] at h
      exact absurd (h.1 ▸ List.mem_cons_self _ _) hX
    | cons y a =>
      simp only [List.cons_append, List.cons.injEq] at h
      obtain ⟨a2, h1, h2⟩ := ih a (fun hm => hX (List.mem_cons_of_mem _ hm)) h.2
      exact ⟨a2, by simp [h.1, h1], h2⟩

theorem escapeHTML_amp_origin (s a b : JSString) (h : escapeHTML s = a ++ '&' :: b) :
    ∃ pre c post, s = pre ++ c :: post ∧ reservedClass c = true ∧ a = escapeHTML pre ∧
      '&' :: b = escapeLookup c ++ escapeHTML post ∧ escapeLookup c ∈ entitySequences := by
  induction s generalizing a with
  | nil => simp [escapeHTML_nil] at h
  | cons c s ih =>
    rw [escapeHTML_cons] at h
    cases hc : reservedClass c
    · rw [entityOf_of_not_reserved c hc] at h
      have hne : '&' ∉ [c] := by
        intro hm
        have : c = '&' := (List.mem_singleton.1 hm).symm
        subst this
        simp [reservedClass] at hc
      obtain ⟨a2, h1, h2⟩ := amp_split [c] (escapeHTML s) a b hne h.symm
      obtain ⟨pre, d, post, hs, hd, ha, hb, hm⟩ := ih a2 h2
      refine ⟨c :: pre, d, post, by simp [hs], hd, ?_, hb, hm⟩
      rw [escapeHTML_cons, entityOf_of_not_reserved c hc, h1, ha]
    · obtain ⟨tail, ht, hnot, hmem⟩ := entityOf_reserved_shape c hc
      rw [ht] at h
      cases a with
      | nil =>
        refine ⟨[], c, s, rfl, hc, rfl, ?_, ?_⟩
        · rw [escapeLookup_eq_entityOf c hc, ht]
          simpa using h.symm
        · rw [escapeLookup_eq_entityOf c hc]; exact hmem
      | cons y a =>
        simp only [List.cons_append, List.cons.injEq] at h
        obtain ⟨a2, h1, h2⟩ := amp_split tail (escapeHTML s) a b hnot h.2.symm
        obtain ⟨pre, d, post, hs, hd, ha, hb, hm⟩ := ih a2 h2
        refine ⟨c :: pre, d, post, by simp [hs], hd, ?_, hb, hm⟩
        rw [escapeHTML_cons, ht, h1, ha, ← h.1]
        simp

theorem entitySequences_safe :
    ∀ e ∈ entitySequences, ∀ c ∈ e, c ≠ '<' ∧ c ≠ '>' ∧ c ≠ dquote ∧ c ≠ squote := by
  decide

theorem escapeHTML_no_raw (s : JSString) (c : Char) (h : c ∈ escapeHTML s) :
    c ≠ '<' ∧ c ≠ '>' ∧ c ≠ dquote ∧ c ≠ squote := by
  induction s with
  | nil => simp [escapeHTML_nil] at h
  | cons d s ih =>
    rw [escapeHTML_cons, List.mem_append] at h
    rcases h with h | h
    · cases hd : reservedClass d
      · rw [entityOf_of_not_reserved d hd] at h
        have hcd : c = d := by simpa using h
        subst hcd
        have := (reservedClass_iff c).not.1 (by simp [hd])
        simp only [not_or] at this
        exact ⟨this.2.1, this.2.2.1, this.2.2.2.1, this.2.2.2.2⟩
      · obtain ⟨_, _, _, hmem⟩ := entityOf_reserved_shape d hd
        exact entitySequences_safe _ hmem c h
    · exact ih h

/-- C2. For every string `s`, the characters `<`, `>`, `"` and `'` do not occur in
`escapeHTML s`, and every `&` of `escapeHTML s` is the first character of one of the five entity
sequences, namely of the entity the function wrote for a reserved character of `s`: the text
before it is the escaped text before that character, and the text from it on is the entity
followed by the escaped rest. -/
theorem escapeHTML_output_safe (s : JSString) :
    (∀ c ∈ escapeHTML s, c ≠ '<' ∧ c ≠ '>' ∧ c ≠ dquote ∧ c ≠ squote) ∧
    (∀ a b, escapeHTML s = a ++ '&' :: b →
      ∃ pre c post, s = pre ++ c :: post ∧ reservedClass c = true ∧ a = escapeHTML pre ∧
        '&' :: b = escapeLookup c ++ escapeHTML post ∧ escapeLookup c ∈ entitySequences) :=
  ⟨fun c hc => escapeHTML_no_raw s c hc, fun a b h => escapeHTML_amp_origin s a b h⟩

/-- C3. For every string `s`, `escapeHTML s` is the concatenation, in order, of the images of
the characters of `s` under the entity map (other characters map to themselves); and
`escapeHTML("<b>a & b</b>")` is `&lt;b&gt;a &amp; b&lt;/b&gt;`. -/
theorem escapeHTML_eq_reference :
    (∀ s : JSString, escapeHTML s = escapeReference s) ∧
    escapeHTML "<b>a & b</b>".toList = "&lt;b&gt;a &amp; b&lt;/b&gt;".toList := by
  refine ⟨fun s => ?_, by decide⟩
  induction s with
  | nil => rfl
  | cons c s ih => rw [escapeHTML_cons, ih]; simp [escapeReference]

/-! ## Theorems: `findCheckedRadioButton` -/

theorem findCheckedRadioButton_none (bs : List Button) (h : ∀ x ∈ bs, x.checked = false) :
    findCheckedRadioButton bs = none := by
  induction bs with
  | nil => rfl
  | cons b bs ih =>
    have hb : b.checked = false := h b (by simp)
    simp [findCheckedRadioButton, hb, ih (fun x hx => h x (List.mem_cons_of_mem _ hx))]

theorem findCheckedRadioButton_first (bs : List Button) (i : Nat) (b : Button)
    (hi : bs[i]? = some b) (hb : b.checked = true)
    (hlt : ∀ j x, j < i → bs[j]? = some x → x.checked = false) :
    findCheckedRadioButton bs = some b.value := by
  induction bs generalizing i with
  | nil => simp at hi
  | cons a bs ih =>
    cases i with
    | zero =>
      have : a = b := by simpa using hi
      subst this
      simp [findCheckedRadioButton, hb]
    | succ i =>
      have ha : a.checked = false := hlt 0 a (Nat.succ_pos i) (by simp)
      have hi' : bs[i]? = some b := by simpa using hi
      simp only [findCheckedRadioButton, ha, Bool.false_eq_true, if_false]
      exact ih i hi' (fun j x hj hx => hlt (j + 1) x (Nat.succ_lt_succ hj) (by simpa using hx))

/-- C4. If the button at index `i` is checked and no button before it is, the result of
`findCheckedRadioButton` is the value of that button (later checked buttons are ignored); if no
button is checked, the empty collection included, the result is absent.  The two examples of the
specification: `[{false,a},{true,b},{true,c}]` gives `b`, and `[{false,a}]` gives nothing. -/
theorem findCheckedRadioButton_spec :
    (∀ (bs : List Button) (i : Nat) (b : Button), bs[i]? = some b → b.checked = true →
      (∀ j x, j < i → bs[j]? = some x → x.checked = false) →
      findCheckedRadioButton bs = some b.value) ∧
    (∀ bs : List Button, (∀ x ∈ bs, x.checked = false) → findCheckedRadioButton bs = none) ∧
    findCheckedRadioButton [] = none ∧
    findCheckedRadioButton
      [⟨false, "a".toList⟩, ⟨true, "b".toList⟩, ⟨true, "c".toList⟩] = some "b".toList ∧
    findCheckedRadioButton [⟨false, "a".toList⟩] = none :=
  ⟨findCheckedRadioButton_first, findCheckedRadioButton_none, rfl, by decide, by decide⟩

/-! ## Theorems: attributes -/

theorem getAttribute_setAttribute_self (attrs : List Attr) (n v : JSString) :
    getAttribute (setAttribute attrs n v) n = some v := by
  induction attrs with
  | nil => simp [setAttribute, getAttribute]
  | cons a attrs ih =>
    obtain ⟨m, w⟩ := a
    by_cases h : m = n
    · simp [setAttribute, getAttribute, h]
    · simp [setAttribute, getAttribute, h, ih]

theorem getAttribute_setAttribute_ne (attrs : List Attr) (n m v : JSString) (h : m ≠ n) :
    getAttribute (setAttribute attrs n v) m = getAttribute attrs m := by
  induction attrs with
  | nil => simp [setAttribute, getAttribute, Ne.symm h]
  | cons a attrs ih =>
    obtain ⟨k, w⟩ := a
    by_cases hk : k = n
    · subst hk
      simp [setAttribute, getAttribute, Ne.symm h]
    · by_cases hm : k = m
      · subst hm
        simp [setAttribute, getAttribute, h]
      · simp [setAttribute, getAttribute, hk, hm, ih]

theorem getAttribute_setAttribute (attrs : List Attr) (n m v : JSString) :
    getAttribute (setAttribute attrs n v) m = if m = n then some v else getAttribute attrs m := by
  by_cases h : m = n
  · subst h; simp [getAttribute_setAttribute_self]
  · simp [h, getAttribute_setAttribute_ne attrs n m v h]

theorem getAttribute_removeAttribute_ne (attrs : List Attr) (n m : JSString) (h : m ≠ n) :
    getAttribute (removeAttribute attrs n) m = getAttribute attrs m := by
  induction attrs with
  | nil => rfl
  | cons a attrs ih =>
    obtain ⟨k, w⟩ := a
    by_cases hk : k = n
    · subst hk
      simp [removeAttribute, getAttribute, Ne.symm h]
    · by_cases hm : k = m
      · subst hm
        simp [removeAttribute, getAttribute, h]
      · simp [removeAttribute, getAttribute, hk, hm, ih]

theorem getAttribute_eq_none_of_not_mem (attrs : List Attr) (n : JSString)
    (h : n ∉ attrs.map Prod.fst) : getAttribute attrs n = none := by
  induction attrs with
  | nil => rfl
  | cons a attrs ih =>
    obtain ⟨k, w⟩ := a
    simp only [List.map_cons, List.mem_cons, not_or] at h
    simp [getAttribute, Ne.symm h.1, ih h.2]

theorem getAttribute_removeAttribute_self (attrs : List Attr) (n : JSString)
    (h : distinctNames attrs) : getAttribute (removeAttribute attrs n) n = none := by
  induction attrs with
  | nil => rfl
  | cons a attrs ih =>
    obtain ⟨k, w⟩ := a
    have h' : k ∉ attrs.map Prod.fst ∧ distinctNames attrs := by
      simpa [distinctNames] using h
    by_cases hk : k = n
    · subst hk
      simpa [removeAttribute] using getAttribute_eq_none_of_not_mem attrs k h'.1
    · simp [removeAttribute, getAttribute, hk, ih h'.2]

theorem indexOf_ge (xs : List JSString) (x : JSString) : -1 ≤ indexOf xs x := by
  induction xs with
  | nil => simp [indexOf]
  | cons y ys ih =>
    unfold indexOf
    split_ifs <;> omega

theorem indexOf_ne_iff_mem (xs : List JSString) (x : JSString) :
    indexOf xs x ≠ -1 ↔ x ∈ xs := by
  induction xs with
  | nil => simp [indexOf]
  | cons y ys ih =>
    have hge := indexOf_ge ys x
    by_cases hy : y = x
    · simp [indexOf, hy]
    · have hxy : ¬ x = y := fun e => hy e.symm
      by_cases hi : indexOf ys x = -1
      · have : x ∉ ys := fun hm => (ih.2 hm) hi
        simp [indexOf, hy, hi, hxy, this]
      · have hm : x ∈ ys := ih.1 hi
        have : indexOf ys x + 1 ≠ -1 := by omega
        simp [indexOf, hy, hi, hm, this]

/-! ## Theorems: the two tree walks -/

theorem Node.induction_on {P : Node → Prop} {Q : List Node → Prop}
    (htext : ∀ data, P (.text data))
    (helem : ∀ tag attrs childNodes, Q childNodes → P (.element tag attrs childNodes))
    (hnil : Q [])
    (hcons : ∀ n ns, P n → Q ns → Q (n :: ns)) :
    (∀ n, P n) ∧ (∀ ns, Q ns) :=
  ⟨fun n => @Node.rec P Q htext helem hnil hcons n,
   fun ns => @Node.rec_1 P Q htext helem hnil hcons ns⟩

theorem renameAttrs_snd (p : JSString) (attrs : List Attr) (R : List JSString) :
    (renameAttrs p attrs R).2 = R ++ ownIds attrs := by
  unfold renameAttrs ownIds
  cases getAttribute attrs idAttr with
  | none => simp
  | some v => by_cases h : v = [] <;> simp [h]

theorem renameAttrs_fst (p : JSString) (attrs : List Attr) (R : List JSString) :
    (renameAttrs p attrs R).1 = (renameAttrs p attrs []).1 := by
  unfold renameAttrs
  cases getAttribute attrs idAttr with
  | none => simp
  | some v => by_cases h : v = [] <;> simp [h]

theorem mapAttrsList_eq_map (f : List Attr → List Attr) (ns : List Node) :
    mapAttrsList f ns = ns.map (mapAttrs f) := by
  induction ns with
  | nil => simp [mapAttrsList]
  | cons n ns ih => simp [mapAttrsList, ih]

theorem subtreeIdsList_eq_flatMap (ns : List Node) :
    subtreeIdsList ns = ns.flatMap subtreeIds := by
  induction ns with
  | nil => simp [subtreeIdsList]
  | cons n ns ih => simp [subtreeIdsList, ih]

theorem rename_spec (p : JSString) :
    (∀ n R, rename p n R = (mapAttrs (fun a => (renameAttrs p a []).1) n, R ++ subtreeIds n)) ∧
    (∀ ns R, renameChildren p ns R =
      (mapAttrsList (fun a => (renameAttrs p a []).1) ns, R ++ subtreeIdsList ns)) := by
  apply Node.induction_on
  · intro data R
    simp [rename, mapAttrs, subtreeIds]
  · intro tag attrs kids ih R
    simp only [rename, ih, mapAttrs, subtreeIds, renameAttrs_snd, List.append_assoc]
    rw [renameAttrs_fst]
  · intro R
    simp [renameChildren, mapAttrsList, subtreeIdsList]
  · intro n ns ihn ihns R
    simp only [renameChildren, ihn, ihns, mapAttrsList, subtreeIdsList, List.append_assoc]

theorem fixIDReferences_spec (p : JSString) (R : List JSString) :
    (∀ n, fixIDReferences p R n = mapAttrs (fixAttrs p R) n) ∧
    (∀ ns, fixIDReferencesChildren p R ns = mapAttrsList (fixAttrs p R) ns) := by
  apply Node.induction_on
  · intro data; simp [fixIDReferences, mapAttrs]
  · intro tag attrs kids ih; simp [fixIDReferences, mapAttrs, ih]
  · simp [fixIDReferencesChildren, mapAttrsList]
  · intro n ns ihn ihns; simp [fixIDReferencesChildren, mapAttrsList, ihn, ihns]

theorem kids_mapAttrs (f : List Attr → List Attr) (n : Node) :
    (mapAttrs f n).kids = n.kids.map (mapAttrs f) := by
  cases n with
  | text d => simp [mapAttrs, Node.kids]
  | element t a k => simp [mapAttrs, Node.kids, mapAttrsList_eq_map]

theorem nodeAt_mapAttrs (f : List Attr → List Attr) (pos : List Nat) (n : Node) :
    nodeAt pos (mapAttrs f n) = (nodeAt pos n).map (mapAttrs f) := by
  induction pos generalizing n with
  | nil => simp [nodeAt]
  | cons i pos ih =>
    simp only [nodeAt, kids_mapAttrs, List.getElem?_map]
    cases n.kids[i]? with
    | none => simp
    | some c => simp [ih]

theorem mem_subtreeIds_iff (v : JSString) :
    (∀ n, v ∈ subtreeIds n ↔ ∃ pos, attrAt n pos idAttr = some v ∧ v ≠ []) := by
  intro n
  constructor
  · revert n
    refine (Node.induction_on (P := fun n => v ∈ subtreeIds n →
        ∃ pos, attrAt n pos idAttr = some v ∧ v ≠ [])
      (Q := fun ns => v ∈ subtreeIdsList ns →
        ∃ (i : Nat) (c : Node) (pos : List Nat),
          ns[i]? = some c ∧ attrAt c pos idAttr = some v ∧ v ≠ []) ?_ ?_ ?_ ?_).1
    · intro data h; simp [subtreeIds] at h
    · intro tag attrs kids ih h
      simp only [subtreeIds, List.mem_append] at h
      rcases h with h | h
      · refine ⟨[], ?_⟩
        unfold ownIds at h
        cases hg : getAttribute attrs idAttr with
        | none => simp [hg] at h
        | some w =>
          by_cases hw : w = []
          · simp [hg, hw] at h
          · simp only [hg, ne_eq, hw, not_false_eq_true, if_true, List.mem_singleton] at h
            subst h
            exact ⟨by simp [attrAt, nodeAt, hg], hw⟩
      · obtain ⟨i, c, pos, hc, hat, hv⟩ := ih h
        refine ⟨i :: pos, ?_, hv⟩
        simpa [attrAt, nodeAt, Node.kids, hc] using hat
    · intro h; simp [subtreeIdsList] at h
    · intro n ns ihn ihns h
      simp only [subtreeIdsList, List.mem_append] at h
      rcases h with h | h
      · obtain ⟨pos, hat, hv⟩ := ihn h
        exact ⟨0, n, pos, by simp, hat, hv⟩
      · obtain ⟨i, c, pos, hc, hat, hv⟩ := ihns h
        exact ⟨i + 1, c, pos, by simpa using hc, hat, hv⟩
  · rintro ⟨pos, hat, hv⟩
    induction pos generalizing n with
    | nil =>
      cases n with
      | text d => simp [attrAt, nodeAt] at hat
      | element t a k =>
        have hg : getAttribute a idAttr = some v := by simpa [attrAt, nodeAt] using hat
        simp [subtreeIds, ownIds, hg, hv]
    | cons i pos ih =>
      cases n with
      | text d => simp [attrAt, nodeAt, Node.kids] at hat
      | element t a k =>
        cases hk : k[i]? with
        | none => simp [attrAt, nodeAt, Node.kids, hk] at hat
        | some c =>
          have hat' : attrAt c pos idAttr = some v := by
            simpa [attrAt, nodeAt, Node.kids, hk] using hat
          have hc := ih c hat'
          simp only [subtreeIds, List.mem_append, subtreeIdsList_eq_flatMap, List.mem_flatMap]
          exact Or.inr ⟨c, List.mem_iff_getElem?.2 ⟨i, hk⟩, hc⟩

/-! ## Theorems: the regular expression `spaceSeparated` -/

theorem notWhiteSpace_eq_true (c : Char) : notWhiteSpace c = true ↔ isWhiteSpace c = false := by
  simp [notWhiteSpace]

theorem notWhiteSpace_eq_false (c : Char) : notWhiteSpace c = false ↔ isWhiteSpace c = true := by
  simp [notWhiteSpace]

theorem dropWhile_head_or_nil (p : Char → Bool) (s : JSString) :
    s.dropWhile p = [] ∨ ∃ c r, s.dropWhile p = c :: r ∧ p c = false := by
  cases h : s.dropWhile p with
  | nil => exact Or.inl rfl
  | cons c r =>
    refine Or.inr ⟨c, r, rfl, ?_⟩
    have := List.head_dropWhile_not p s (by simp [h])
    simpa [h] using this

theorem takeWhile_white_eq_nil_of_token (s : JSString)
    (h : s.takeWhile notWhiteSpace ≠ []) : s.takeWhile isWhiteSpace = [] := by
  cases s with
  | nil => rfl
  | cons c r =>
    cases hc : isWhiteSpace c
    · simp [List.takeWhile, hc]
    · simp [List.takeWhile, notWhiteSpace, hc] at h

theorem matchSpaceSeparated_none (b : Bool) (s : JSString)
    (h : ∀ c ∈ s, isWhiteSpace c = true) : matchSpaceSeparated b s = none := by
  have h1 : s.takeWhile notWhiteSpace = [] := by
    cases s with
    | nil => rfl
    | cons c r => simp [List.takeWhile, notWhiteSpace, h c (by simp)]
  have h2 : s.dropWhile isWhiteSpace = [] := List.dropWhile_eq_nil_iff.2 h
  simp [matchSpaceSeparated, h1, h2]

theorem replaceFrom_white (f : JSString → JSString) (fuel : Nat) (b : Bool) (s : JSString)
    (h : ∀ c ∈ s, isWhiteSpace c = true) : replaceFrom f fuel b s = s := by
  induction fuel generalizing b s with
  | zero => rfl
  | succ fuel ih =>
    simp only [replaceFrom, matchSpaceSeparated_none b s h]
    cases s with
    | nil => rfl
    | cons c r =>
      simp only
      rw [ih false r (fun x hx => h x (List.mem_cons_of_mem _ hx))]

theorem matchSpaceSeparated_some (b : Bool) (s : JSString)
    (hinv : b = true ∨ s = [] ∨ ∃ c r, s = c :: r ∧ isWhiteSpace c = true)
    (ht : (s.dropWhile isWhiteSpace).takeWhile notWhiteSpace ≠ []) :
    matchSpaceSeparated b s =
      some ((s.dropWhile isWhiteSpace).takeWhile notWhiteSpace,
        (s.dropWhile isWhiteSpace).dropWhile notWhiteSpace) := by
  by_cases h1 : s.takeWhile notWhiteSpace = []
  · have hw : s.takeWhile isWhiteSpace ≠ [] := by
      cases s with
      | nil => simp at ht
      | cons c r =>
        cases hc : isWhiteSpace c
        · simp [List.takeWhile, notWhiteSpace, hc] at h1
        · simp [List.takeWhile, hc]
    simp [matchSpaceSeparated, h1, hw, ht]
  · have hw : s.takeWhile isWhiteSpace = [] := takeWhile_white_eq_nil_of_token s h1
    have hd : s.dropWhile isWhiteSpace = s := by
      have := List.takeWhile_append_dropWhile isWhiteSpace s
      rw [hw] at this
      simpa using this
    rcases hinv with hb | hs | ⟨c, r, hs, hc⟩
    · subst hb
      simp [matchSpaceSeparated, h1, hd]
    · subst hs; simp at h1
    · subst hs; simp [List.takeWhile, hc] at hw

theorem all_white_of_no_token (s : JSString)
    (ht : (s.dropWhile isWhiteSpace).takeWhile notWhiteSpace = []) :
    ∀ c ∈ s, isWhiteSpace c = true := by
  rcases dropWhile_head_or_nil isWhiteSpace s with h | ⟨c, r, h, hc⟩
  · exact List.dropWhile_eq_nil_iff.1 h
  · rw [h] at ht
    simp [List.takeWhile, notWhiteSpace, hc] at ht

/-! ## Theorems: tokens and trailing white space -/

theorem tokensFrom_white (w rest : JSString) (h : ∀ c ∈ w, isWhiteSpace c = true) :
    tokensFrom [] (w ++ rest) = tokensFrom [] rest := by
  induction w with
  | nil => rfl
  | cons c w ih =>
    have hc : isWhiteSpace c = true := h c (by simp)
    simp only [List.cons_append, tokensFrom, hc, if_true]
    exact ih (fun x hx => h x (List.mem_cons_of_mem _ hx))

theorem tokensFrom_token (cur t rest : JSString) (h : ∀ c ∈ t, isWhiteSpace c = false) :
    tokensFrom cur (t ++ rest) = tokensFrom (cur ++ t) rest := by
  induction t generalizing cur with
  | nil => simp
  | cons c t ih =>
    have hc : isWhiteSpace c = false := h c (by simp)
    have := ih (cur ++ [c]) (fun x hx => h x (List.mem_cons_of_mem _ hx))
    simp [tokensFrom, hc, this]

theorem tokensFrom_end (cur rest : JSString) (hcur : cur ≠ [])
    (hrest : rest = [] ∨ ∃ c r, rest = c :: r ∧ isWhiteSpace c = true) :
    tokensFrom cur rest = cur :: tokensFrom [] rest := by
  rcases hrest with h | ⟨c, r, h, hc⟩
  · subst h; simp [tokensFrom, hcur]
  · subst h; simp [tokensFrom, hc, hcur]

theorem tokens_white (s : JSString) (h : ∀ c ∈ s, isWhiteSpace c = true) : tokens s = [] := by
  have := tokensFrom_white s [] h
  simpa [tokens, tokensFrom] using this

theorem tokens_decompose (w t rest : JSString) (hw : ∀ c ∈ w, isWhiteSpace c = true)
    (ht : ∀ c ∈ t, isWhiteSpace c = false) (hne : t ≠ [])
    (hrest : rest = [] ∨ ∃ c r, rest = c :: r ∧ isWhiteSpace c = true) :
    tokens (w ++ (t ++ rest)) = t :: tokens rest := by
  unfold tokens
  rw [tokensFrom_white w _ hw, tokensFrom_token [] t rest ht]
  simpa using tokensFrom_end t rest hne hrest

theorem tokensFrom_valid (cur s : JSString) (hcur : ∀ c ∈ cur, isWhiteSpace c = false) :
    ∀ t ∈ tokensFrom cur s, t ≠ [] ∧ ∀ c ∈ t, isWhiteSpace c = false := by
  induction s generalizing cur with
  | nil =>
    intro t ht
    by_cases hc : cur = []
    · simp [tokensFrom, hc] at ht
    · simp only [tokensFrom, hc, if_false, List.mem_singleton] at ht
      subst ht; exact ⟨hc, hcur⟩
  | cons c s ih =>
    intro t ht
    cases hc : isWhiteSpace c
    · simp only [tokensFrom, hc] at ht
      refine ih (cur ++ [c]) ?_ t (by simpa using ht)
      intro x hx
      rcases List.mem_append.1 hx with hx | hx
      · exact hcur x hx
      · have : x = c := by simpa using hx
        subst this; exact hc
    · by_cases hcur0 : cur = []
      · simp only [tokensFrom, hc, hcur0, if_true] at ht
        exact ih [] (by simp) t ht
      · simp only [tokensFrom, hc, hcur0, if_true, if_false, List.mem_cons] at ht
        rcases ht with ht | ht
        · subst ht; exact ⟨hcur0, hcur⟩
        · exact ih [] (by simp) t ht

theorem tokens_valid (s : JSString) :
    ∀ t ∈ tokens s, t ≠ [] ∧ ∀ c ∈ t, isWhiteSpace c = false :=
  tokensFrom_valid [] s (by simp)

theorem takeWhile_append_stop (p : Char → Bool) (l1 l2 : JSString) (x : Char) (hx : p x = false) :
    (l1 ++ x :: l2).takeWhile p = l1.takeWhile p := by
  induction l1 with
  | nil => simp [List.takeWhile, hx]
  | cons c l1 ih =>
    cases hc : p c <;> simp [List.takeWhile, hc, ih]

theorem trailingWhiteSpace_white (s : JSString) (h : ∀ c ∈ s, isWhiteSpace c = true) :
    trailingWhiteSpace s = s := by
  unfold trailingWhiteSpace
  have : s.reverse.takeWhile isWhiteSpace = s.reverse :=
    List.takeWhile_eq_self_iff.2 (fun x hx => h x (List.mem_reverse.1 hx))
  rw [this, List.reverse_reverse]

theorem trailingWhiteSpace_after (a b : JSString) (x : Char) (hx : isWhiteSpace x = false) :
    trailingWhiteSpace (a ++ x :: b) = trailingWhiteSpace b := by
  unfold trailingWhiteSpace
  have : (a ++ x :: b).reverse = b.reverse ++ x :: a.reverse := by simp
  rw [this, takeWhile_append_stop isWhiteSpace _ _ x hx]

theorem trailingWhiteSpace_decompose (w t rest : JSString)
    (ht : ∀ c ∈ t, isWhiteSpace c = false) (hne : t ≠ []) :
    trailingWhiteSpace (w ++ (t ++ rest)) = trailingWhiteSpace rest := by
  have hlast := List.dropLast_append_getLast hne
  have hx : isWhiteSpace (t.getLast hne) = false := ht _ (List.getLast_mem hne)
  have : w ++ (t ++ rest) = (w ++ t.dropLast) ++ t.getLast hne :: rest := by
    conv_lhs => rw [← hlast]
    simp
  rw [this, trailingWhiteSpace_after _ _ _ hx]

/-- The result of `replace(spaceSeparated, f)`, for any callback `f`: the replacements of the
tokens, in order, followed by the trailing white space of the subject. -/
theorem replaceFrom_eq (f : JSString → JSString) (fuel : Nat) (b : Bool) (s : JSString)
    (hfuel : s.length < fuel)
    (hinv : b = true ∨ s = [] ∨ ∃ c r, s = c :: r ∧ isWhiteSpace c = true) :
    replaceFrom f fuel b s = ((tokens s).map f).flatten ++ trailingWhiteSpace s := by
  induction fuel generalizing b s with
  | zero => omega
  | succ fuel ih =>
    by_cases ht : (s.dropWhile isWhiteSpace).takeWhile notWhiteSpace = []
    · have hall := all_white_of_no_token s ht
      rw [replaceFrom_white f _ b s hall, tokens_white s hall, trailingWhiteSpace_white s hall]
      simp
    · have hs : s = s.takeWhile isWhiteSpace ++
          ((s.dropWhile isWhiteSpace).takeWhile notWhiteSpace ++
            (s.dropWhile isWhiteSpace).dropWhile notWhiteSpace) := by
        rw [List.takeWhile_append_dropWhile, List.takeWhile_append_dropWhile]
      have hw : ∀ c ∈ s.takeWhile isWhiteSpace, isWhiteSpace c = true :=
        fun c hc => List.mem_takeWhile_imp hc
      have htok : ∀ c ∈ (s.dropWhile isWhiteSpace).takeWhile notWhiteSpace,
          isWhiteSpace c = false :=
        fun c hc => (notWhiteSpace_eq_true c).1 (List.mem_takeWhile_imp hc)
      have hrest : (s.dropWhile isWhiteSpace).dropWhile notWhiteSpace = [] ∨
          ∃ c r, (s.dropWhile isWhiteSpace).dropWhile notWhiteSpace = c :: r ∧
            isWhiteSpace c = true := by
        rcases dropWhile_head_or_nil notWhiteSpace (s.dropWhile isWhiteSpace) with h | ⟨c, r, h, hc⟩
        · exact Or.inl h
        · exact Or.inr ⟨c, r, h, (notWhiteSpace_eq_false c).1 hc⟩
      have hlen : ((s.dropWhile isWhiteSpace).dropWhile notWhiteSpace).length < fuel := by
        have h1 := congrArg List.length hs
        simp only [List.length_append] at h1
        have h2 : 0 < ((s.dropWhile isWhiteSpace).takeWhile notWhiteSpace).length :=
          List.length_pos.2 ht
        omega
      simp only [replaceFrom, matchSpaceSeparated_some b s hinv ht]
      rw [ih false _ hlen (Or.inr hrest)]
      conv_rhs => rw [hs]
      rw [tokens_decompose _ _ _ hw htok ht hrest, trailingWhiteSpace_decompose _ _ _ htok ht]
      simp

theorem replaceSpaceSeparated_eq (f : JSString → JSString) (v : JSString) :
    replaceSpaceSeparated f v = ((tokens v).map f).flatten ++ trailingWhiteSpace v :=
  replaceFrom_eq f (v.length + 1) true v (Nat.lt_succ_self _) (Or.inl rfl)

theorem tokens_of_layout (L : List JSString) (w : JSString)
    (hL : ∀ t ∈ L, t ≠ [] ∧ ∀ c ∈ t, isWhiteSpace c = false)
    (hw : ∀ c ∈ w, isWhiteSpace c = true) :
    tokens ((L.map (fun t => ' ' :: t)).flatten ++ w) = L := by
  induction L with
  | nil => simpa using tokens_white w hw
  | cons t L ih =>
    have ht := hL t (by simp)
    have hrest : ((L.map (fun t => ' ' :: t)).flatten ++ w) = [] ∨
        ∃ c r, ((L.map (fun t => ' ' :: t)).flatten ++ w) = c :: r ∧ isWhiteSpace c = true := by
      cases L with
      | nil =>
        cases w with
        | nil => exact Or.inl rfl
        | cons c r => exact Or.inr ⟨c, r, rfl, hw c (by simp)⟩
      | cons u L => exact Or.inr ⟨' ', _, rfl, by decide⟩
    have := tokens_decompose [' '] t ((L.map (fun t => ' ' :: t)).flatten ++ w)
      (by simp; decide) ht.2 ht.1 hrest
    simp only [List.map_cons, List.flatten_cons, List.cons_append, List.append_assoc]
    simp only [List.singleton_append] at this
    rw [this, ih (fun u hu => hL u (List.mem_cons_of_mem _ hu))]

theorem trailingWhiteSpace_is_white (s : JSString) :
    ∀ c ∈ trailingWhiteSpace s, isWhiteSpace c = true := by
  intro c hc
  unfold trailingWhiteSpace at hc
  exact List.mem_takeWhile_imp (List.mem_reverse.1 hc)

/-! ## Theorems: what `cloneElement` does to each attribute -/

theorem getAttribute_renameAttrs (p : JSString) (attrs : List Attr) (name : JSString) :
    getAttribute (renameAttrs p attrs []).1 name =
      if name = idAttr then
        (getAttribute attrs idAttr).map (fun v => if v ≠ [] then p ++ v else v)
      else getAttribute attrs name := by
  unfold renameAttrs
  cases hg : getAttribute attrs idAttr with
  | none =>
    by_cases hn : name = idAttr
    · subst hn; simp [hg]
    · simp [hn]
  | some v =>
    by_cases hv : v = []
    · by_cases hn : name = idAttr
      · subst hn; simp [hv, hg]
      · simp [hv, hn]
    · by_cases hn : name = idAttr
      · subst hn; simp [hv, getAttribute_setAttribute]
      · simp [hv, hn, getAttribute_setAttribute]

theorem getAttribute_fixFor (p : JSString) (R : List JSString) (attrs : List Attr)
    (name : JSString) :
    getAttribute (fixFor p R attrs) name =
      if name = forAttr then
        (getAttribute attrs forAttr).map (fun v => if v ≠ [] ∧ v ∈ R then p ++ v else v)
      else getAttribute attrs name := by
  unfold fixFor
  cases hg : getAttribute attrs forAttr with
  | none =>
    by_cases hn : name = forAttr
    · subst hn; simp [hg]
    · simp [hn]
  | some v =>
    dsimp only
    by_cases hc : v ≠ [] ∧ v ∈ R
    · have hc' : v ≠ [] ∧ indexOf R v ≠ -1 := ⟨hc.1, (indexOf_ne_iff_mem R v).2 hc.2⟩
      rw [if_pos hc', getAttribute_setAttribute]
      by_cases hn : name = forAttr
      · rw [if_pos hn, if_pos hn, Option.map_some', if_pos hc]
      · rw [if_neg hn, if_neg hn]
    · have hc' : ¬ (v ≠ [] ∧ indexOf R v ≠ -1) := by
        rw [indexOf_ne_iff_mem]; exact hc
      rw [if_neg hc']
      by_cases hn : name = forAttr
      · rw [if_pos hn, Option.map_some', if_neg hc, hn, hg]
      · rw [if_neg hn]

theorem getAttribute_fixSelector (p : JSString) (R : List JSString) (attrs : List Attr)
    (n name : JSString) :
    getAttribute (fixSelector p R attrs n) name =
      if name = n then
        (getAttribute attrs n).map (fun v =>
          if v.head? = some '#' ∧ v.drop 1 ∈ R then '#' :: (p ++ v.drop 1) else v)
      else getAttribute attrs name := by
  unfold fixSelector
  cases hg : getAttribute attrs n with
  | none =>
    by_cases hn : name = n
    · subst hn; simp [hg]
    · simp [hn]
  | some v =>
    dsimp only
    by_cases hh : v.head? = some '#'
    · have hne : v ≠ [] := by intro e; subst e; simp at hh
      rw [if_pos ⟨hne, hh⟩]
      by_cases hm : v.drop 1 ∈ R
      · have hi : indexOf R (v.drop 1) ≠ -1 := (indexOf_ne_iff_mem R _).2 hm
        rw [if_pos hi, getAttribute_setAttribute]
        by_cases hn : name = n
        · rw [if_pos hn, if_pos hn, Option.map_some', if_pos ⟨hh, hm⟩]
        · rw [if_neg hn, if_neg hn]
      · have hi : ¬ indexOf R (v.drop 1) ≠ -1 := fun h => hm ((indexOf_ne_iff_mem R _).1 h)
        rw [if_neg hi]
        by_cases hn : name = n
        · rw [if_pos hn, Option.map_some', if_neg (fun h => hm h.2), hn, hg]
        · rw [if_neg hn]
    · rw [if_neg (fun h => hh h.2)]
      by_cases hn : name = n
      · rw [if_pos hn, Option.map_some', if_neg (fun h => hh h.1), hn, hg]
      · rw [if_neg hn]

theorem replaceSpaceSeparated_nil (f : JSString → JSString) :
    replaceSpaceSeparated f [] = [] := by
  simp [replaceSpaceSeparated, replaceFrom, matchSpaceSeparated]

theorem getAttribute_fixIdList (p : JSString) (R : List JSString) (attrs : List Attr)
    (n name : JSString) :
    getAttribute (fixIdList p R attrs n) name =
      if name = n then
        (getAttribute attrs n).map (replaceSpaceSeparated (replaceID R p))
      else getAttribute attrs name := by
  unfold fixIdList
  cases hg : getAttribute attrs n with
  | none =>
    by_cases hn : name = n
    · subst hn; simp [hg]
    · simp [hn]
  | some v =>
    by_cases hv : v = []
    · subst hv
      by_cases hn : name = n
      · subst hn; simp [hg, replaceSpaceSeparated_nil]
      · simp [hn]
    · by_cases hn : name = n
      · subst hn; simp [hv, getAttribute_setAttribute]
      · simp [hv, hn, getAttribute_setAttribute]

theorem getAttribute_rewritten (p : JSString) (R : List JSString) (attrs : List Attr)
    (name : JSString) :
    getAttribute (fixAttrs p R (renameAttrs p attrs []).1) name =
      (getAttribute attrs name).map (rewriteValue p R name) := by
  simp only [fixAttrs, idListAttribs, selectorAttribs, List.foldl, getAttribute_fixIdList,
    getAttribute_fixSelector, getAttribute_fixFor, getAttribute_renameAttrs]
  unfold rewriteValue
  by_cases h1 : name = idAttr
  · subst h1; simp [idAttr, forAttr, idListAttribs, selectorAttribs]
  by_cases h2 : name = forAttr
  · subst h2; simp [idAttr, forAttr, idListAttribs, selectorAttribs]
  by_cases h3 : name = "data-parent".toList
  · subst h3; simp [idAttr, forAttr, idListAttribs, selectorAttribs]
  by_cases h4 : name = "data-target".toList
  · subst h4; simp [idAttr, forAttr, idListAttribs, selectorAttribs]
  by_cases h5 : name = "href".toList
  · subst h5; simp [idAttr, forAttr, idListAttribs, selectorAttribs]
  by_cases h6 : name = "aria-controls".toList
  · subst h6; simp [idAttr, forAttr, idListAttribs, selectorAttribs]
  by_cases h7 : name = "aria-describedby".toList
  · subst h7; simp [idAttr, forAttr, idListAttribs, selectorAttribs]
  by_cases h8 : name = "aria-labelledby".toList
  · subst h8; simp [idAttr, forAttr, idListAttribs, selectorAttribs]
  simp only [idAttr, forAttr, String.toList] at h1 h2 h3 h4 h5 h6 h7 h8
  simp [h1, h2, h3, h4, h5, h6, h7, h8, idListAttribs, selectorAttribs, idAttr, forAttr]

/-! ## Theorems: `cloneElement` as a whole -/

theorem cloneElement_eq (tag : JSString) (attrs : List Attr) (kids : List Node) (p : JSString)
    (renameRoot : Bool) :
    cloneElement (.element tag attrs kids) p renameRoot =
      some (mapAttrs (fixAttrs p (subtreeIds (stripRoot renameRoot (.element tag attrs kids))))
        (mapAttrs (fun a => (renameAttrs p a []).1)
          (stripRoot renameRoot (.element tag attrs kids)))) := by
  simp [cloneElement, cloneNode, (rename_spec p).1, (fixIDReferences_spec p _).1]

theorem attrAt_rewritten (p : JSString) (R : List JSString) (n : Node) (pos : List Nat)
    (name : JSString) :
    attrAt (mapAttrs (fixAttrs p R) (mapAttrs (fun a => (renameAttrs p a []).1) n)) pos name =
      (attrAt n pos name).map (rewriteValue p R name) := by
  unfold attrAt
  rw [nodeAt_mapAttrs, nodeAt_mapAttrs]
  cases nodeAt pos n with
  | none => rfl
  | some m =>
    cases m with
    | text d => rfl
    | element t a k => simpa [mapAttrs] using getAttribute_rewritten p R a name

theorem elementAt_mapAttrs (f : List Attr → List Attr) (n : Node) (pos : List Nat) :
    elementAt (mapAttrs f n) pos = elementAt n pos := by
  unfold elementAt
  rw [nodeAt_mapAttrs]
  cases nodeAt pos n with
  | none => rfl
  | some m => cases m <;> rfl

theorem nodeAt_stripRoot (renameRoot : Bool) (n : Node) (pos : List Nat) (h : pos ≠ []) :
    nodeAt pos (stripRoot renameRoot n) = nodeAt pos n := by
  cases pos with
  | nil => exact absurd rfl h
  | cons i pos =>
    cases n with
    | text d => rfl
    | element t a k => cases renameRoot <;> rfl

theorem attrAt_stripRoot (renameRoot : Bool) (n : Node) (pos : List Nat) (name : JSString)
    (h : pos ≠ [] ∨ renameRoot = true ∨ name ≠ idAttr) :
    attrAt (stripRoot renameRoot n) pos name = attrAt n pos name := by
  by_cases hp : pos = []
  · subst hp
    cases n with
    | text d => rfl
    | element t a k =>
      rcases h with h | h | h
      · exact absurd rfl h
      · subst h; rfl
      · cases renameRoot
        · simpa [attrAt, nodeAt, stripRoot] using getAttribute_removeAttribute_ne a idAttr name h
        · rfl
  · unfold attrAt; rw [nodeAt_stripRoot renameRoot n pos hp]

theorem elementAt_stripRoot (renameRoot : Bool) (n : Node) (pos : List Nat) :
    elementAt (stripRoot renameRoot n) pos = elementAt n pos := by
  by_cases hp : pos = []
  · subst hp
    cases n with
    | text d => rfl
    | element t a k => cases renameRoot <;> rfl
  · unfold elementAt; rw [nodeAt_stripRoot renameRoot n pos hp]

theorem mem_renamed_iff (tag : JSString) (attrs : List Attr) (kids : List Node)
    (renameRoot : Bool) (hwf : renameRoot = false → distinctNames attrs) (v : JSString) :
    v ∈ subtreeIds (stripRoot renameRoot (.element tag attrs kids)) ↔
      IsRenamedId (.element tag attrs kids) renameRoot v := by
  rw [mem_subtreeIds_iff]
  constructor
  · rintro ⟨pos, hat, hv⟩
    refine ⟨pos, ?_, ?_, hv⟩
    · intro hp
      subst hp
      cases renameRoot with
      | true => rfl
      | false =>
        have := getAttribute_removeAttribute_self attrs idAttr (hwf rfl)
        simp [attrAt, nodeAt, stripRoot, this] at hat
    · by_cases hp : pos = []
      · subst hp
        cases renameRoot with
        | true => simpa [stripRoot] using hat
        | false =>
          have := getAttribute_removeAttribute_self attrs idAttr (hwf rfl)
          simp [attrAt, nodeAt, stripRoot, this] at hat
      · rwa [attrAt_stripRoot renameRoot _ pos idAttr (Or.inl hp)] at hat
  · rintro ⟨pos, hroot, hat, hv⟩
    refine ⟨pos, ?_, hv⟩
    rw [attrAt_stripRoot renameRoot _ pos idAttr]
    · exact hat
    · by_cases hp : pos = []
      · exact Or.inr (Or.inl (hroot hp))
      · exact Or.inl hp

theorem mem_renamed_of_id (tag : JSString) (attrs : List Attr) (kids : List Node)
    (renameRoot : Bool) (pos : List Nat) (v : JSString)
    (hroot : pos = [] → renameRoot = true)
    (hat : attrAt (.element tag attrs kids) pos idAttr = some v) (hv : v ≠ []) :
    v ∈ subtreeIds (stripRoot renameRoot (.element tag attrs kids)) := by
  rw [mem_subtreeIds_iff]
  refine ⟨pos, ?_, hv⟩
  rw [attrAt_stripRoot renameRoot _ pos idAttr]
  · exact hat
  · by_cases hp : pos = []
    · exact Or.inr (Or.inl (hroot hp))
    · exact Or.inl hp

theorem ne_nil_of_mem_subtreeIds (n : Node) (v : JSString) (h : v ∈ subtreeIds n) : v ≠ [] := by
  obtain ⟨_, _, hv⟩ := (mem_subtreeIds_iff v n).1 h
  exact hv

/-- The attributes of the clone, position by position: the clone has an element exactly where
the original has one, and every attribute value of the original, the id of a stripped root apart,
is rewritten by `rewriteValue` with the final list of renamed ids. -/
theorem cloneElement_attrs (tag : JSString) (attrs : List Attr) (kids : List Node)
    (p : JSString) (renameRoot : Bool) :
    ∃ clone, cloneElement (.element tag attrs kids) p renameRoot = some clone ∧
      (∀ pos, elementAt clone pos = elementAt (.element tag attrs kids) pos) ∧
      ∀ pos name, (pos ≠ [] ∨ renameRoot = true ∨ name ≠ idAttr) →
        attrAt clone pos name =
          (attrAt (.element tag attrs kids) pos name).map
            (rewriteValue p (subtreeIds (stripRoot renameRoot (.element tag attrs kids))) name) := by
  refine ⟨_, cloneElement_eq tag attrs kids p renameRoot, ?_, ?_⟩
  · intro pos
    rw [elementAt_mapAttrs, elementAt_mapAttrs, elementAt_stripRoot]
  · intro pos name h
    rw [attrAt_rewritten, attrAt_stripRoot renameRoot _ pos name h]

theorem rewriteValue_id (p : JSString) (R : List JSString) (v : JSString) :
    rewriteValue p R idAttr v = if v ≠ [] then p ++ v else v := by
  simp [rewriteValue]

theorem rewriteValue_for (p : JSString) (R : List JSString) (v : JSString) :
    rewriteValue p R forAttr v = if v ≠ [] ∧ v ∈ R then p ++ v else v := by
  simp [rewriteValue, idAttr, forAttr]

theorem rewriteValue_selector (p : JSString) (R : List JSString) (name v : JSString)
    (h : name ∈ selectorAttribs) :
    rewriteValue p R name v =
      if v.head? = some '#' ∧ v.drop 1 ∈ R then '#' :: (p ++ v.drop 1) else v := by
  have h1 : name ≠ idAttr := by
    intro e; subst e; revert h; decide
  have h2 : name ≠ forAttr := by
    intro e; subst e; revert h; decide
  simp only [rewriteValue, if_neg h1, if_neg h2, if_pos h]

theorem rewriteValue_idList (p : JSString) (R : List JSString) (name v : JSString)
    (h : name ∈ idListAttribs) :
    rewriteValue p R name v = replaceSpaceSeparated (replaceID R p) v := by
  have h1 : name ≠ idAttr := by
    intro e; subst e; revert h; decide
  have h2 : name ≠ forAttr := by
    intro e; subst e; revert h; decide
  have h3 : name ∉ selectorAttribs := by
    intro hs
    simp only [idListAttribs, List.mem_cons, List.mem_singleton, List.not_mem_nil,
      or_false] at h
    rcases h with e | e | e <;> subst e <;> revert hs <;> decide
  simp only [rewriteValue, if_neg h1, if_neg h2, if_neg h3, if_pos h]

theorem ne_idAttr_of_mem (name : JSString)
    (h : name = forAttr ∨ name ∈ selectorAttribs ∨ name ∈ idListAttribs) : name ≠ idAttr := by
  intro e; subst e; revert h; decide

/-- The token written for `t` by `replaceID`, without the space put before it. -/
theorem replaceID_eq (R : List JSString) (p t : JSString) :
    replaceID R p t = ' ' :: (if t ∈ R then p ++ t else t) := by
  unfold replaceID
  by_cases h : t ∈ R
  · rw [if_pos ((indexOf_ne_iff_mem R t).2 h), if_pos h]
  · rw [if_neg (fun hi => h ((indexOf_ne_iff_mem R t).1 hi)), if_neg h]

theorem replaceSpaceSeparated_replaceID (R : List JSString) (p v : JSString) :
    replaceSpaceSeparated (replaceID R p) v =
      (((tokens v).map (fun t => if t ∈ R then p ++ t else t)).map
        (fun t => ' ' :: t)).flatten ++ trailingWhiteSpace v := by
  rw [replaceSpaceSeparated_eq, List.map_map]
  congr 2
  apply List.map_congr_left
  intro t _
  simp [replaceID_eq]

theorem tokens_replaceSpaceSeparated (R : List JSString) (p v : JSString)
    (hp : ∀ c ∈ p, isWhiteSpace c = false) :
    tokens (replaceSpaceSeparated (replaceID R p) v) =
      (tokens v).map (fun t => if t ∈ R then p ++ t else t) := by
  rw [replaceSpaceSeparated_replaceID]
  apply tokens_of_layout _ _ _ (trailingWhiteSpace_is_white v)
  intro u hu
  obtain ⟨t, ht, rfl⟩ := List.mem_map.1 hu
  have hv := tokens_valid v t ht
  by_cases hR : t ∈ R
  · rw [if_pos hR]
    refine ⟨by simp [hv.1], ?_⟩
    intro c hc
    rcases List.mem_append.1 hc with hc | hc
    · exact hp c hc
    · exact hv.2 c hc
  · rw [if_neg hR]; exact hv

/-! ## Theorems: the ids renamed by the rename pass -/

theorem getAttribute_eq_none_iff (attrs : List Attr) (n : JSString) :
    getAttribute attrs n = none ↔ n ∉ attrs.map Prod.fst := by
  induction attrs with
  | nil => simp [getAttribute]
  | cons a attrs ih =>
    obtain ⟨k, w⟩ := a
    by_cases hk : k = n
    · simp [getAttribute, hk]
    · have hnk : ¬ n = k := fun e => hk e.symm
      simp [getAttribute, hk, hnk, ih]

theorem getAttribute_removeAttribute_self_iff (attrs : List Attr) (n : JSString) :
    getAttribute (removeAttribute attrs n) n = none ↔ (attrs.map Prod.fst).count n ≤ 1 := by
  induction attrs with
  | nil => simp [removeAttribute, getAttribute]
  | cons a attrs ih =>
    obtain ⟨k, w⟩ := a
    by_cases hk : k = n
    · subst hk
      have h0 : (attrs.map Prod.fst).count k = 0 ↔ k ∉ attrs.map Prod.fst := List.count_eq_zero
      simp only [removeAttribute, if_true, List.map_cons, List.count_cons_self,
        getAttribute_eq_none_iff, ← h0]
      omega
    · have hnk : n ≠ k := fun e => hk e.symm
      simp only [removeAttribute, hk, if_false, getAttribute, List.map_cons,
        List.count_cons_of_ne hnk]
      exact ih

theorem atMostOneId_of_distinctNames (attrs : List Attr) (h : distinctNames attrs) :
    atMostOneId attrs :=
  (getAttribute_removeAttribute_self_iff attrs idAttr).1
    (getAttribute_removeAttribute_self attrs idAttr h)

theorem mem_renamedAtStart_iff (n : Node) (renameRoot : Bool) (v : JSString) :
    v ∈ subtreeIds (stripRoot renameRoot n) ↔ IsRenamedAtStart n renameRoot v :=
  mem_subtreeIds_iff v (stripRoot renameRoot n)

/-- Where the root carries at most one attribute named `id` (or `renameRoot` is true), the ids
renamed are the non-empty original ids of the elements, the root counting only when `renameRoot`
is true. -/
theorem renamedAtStart_iff_renamedId (tag : JSString) (attrs : List Attr) (kids : List Node)
    (renameRoot : Bool) (h1 : renameRoot = false → atMostOneId attrs) (v : JSString) :
    IsRenamedAtStart (.element tag attrs kids) renameRoot v ↔
      IsRenamedId (.element tag attrs kids) renameRoot v := by
  constructor
  · rintro ⟨pos, hat, hv⟩
    refine ⟨pos, ?_, ?_, hv⟩
    · intro hp
      subst hp
      cases renameRoot with
      | true => rfl
      | false =>
        have := (getAttribute_removeAttribute_self_iff attrs idAttr).2 (h1 rfl)
        simp [attrAt, nodeAt, stripRoot, this] at hat
    · by_cases hp : pos = []
      · subst hp
        cases renameRoot with
        | true => simpa [stripRoot] using hat
        | false =>
          have := (getAttribute_removeAttribute_self_iff attrs idAttr).2 (h1 rfl)
          simp [attrAt, nodeAt, stripRoot, this] at hat
      · rwa [attrAt_stripRoot renameRoot _ pos idAttr (Or.inl hp)] at hat
  · rintro ⟨pos, hroot, hat, hv⟩
    refine ⟨pos, ?_, hv⟩
    rw [attrAt_stripRoot renameRoot _ pos idAttr]
    · exact hat
    · by_cases hp : pos = []
      · exact Or.inr (Or.inl (hroot hp))
      · exact Or.inl hp

theorem isRenamedId_false_iff (tag : JSString) (attrs : List Attr) (kids : List Node)
    (v : JSString) :
    IsRenamedId (.element tag attrs kids) false v ↔ v ∈ subtreeIdsList kids := by
  have hsub : subtreeIds (.element tag [] kids) = subtreeIdsList kids := by
    simp [subtreeIds, ownIds, getAttribute]
  have hpos : ∀ pos, pos ≠ [] → attrAt (.element tag [] kids) pos idAttr =
      attrAt (.element tag attrs kids) pos idAttr := by
    intro pos hp
    cases pos with
    | nil => exact absurd rfl hp
    | cons i rest => rfl
  rw [← hsub, mem_subtreeIds_iff]
  constructor
  · rintro ⟨pos, hroot, hat, hv⟩
    have hp : pos ≠ [] := fun e => absurd (hroot e) (by decide)
    exact ⟨pos, by rw [hpos pos hp]; exact hat, hv⟩
  · rintro ⟨pos, hat, hv⟩
    have hp : pos ≠ [] := by
      intro e
      subst e
      simp [attrAt, nodeAt, getAttribute] at hat
    exact ⟨pos, fun e => absurd e hp, by rw [← hpos pos hp]; exact hat, hv⟩

/-! ## Theorems: the claims about `cloneElement` -/

/-- C5, as stated, fails for an empty id: in the clone of `<div id="">` with prefix `p` and
`renameRoot = true` the root still carries the id `""`, not `"p" + ""`. -/
theorem cloneElement_empty_id_not_prefixed :
    ∃ clone, cloneElement (.element "div".toList [(idAttr, [])] []) "p".toList true = some clone ∧
      attrAt (.element "div".toList [(idAttr, [])] []) [] idAttr = some [] ∧
      attrAt clone [] idAttr = some [] ∧
      attrAt clone [] idAttr ≠ some ("p".toList ++ []) :=
  ⟨_, rfl, by decide, by decide, by decide⟩

/-- C5, amended. For every element tree and prefix `p`, `cloneElement` returns a clone in which
every element that carries a non-empty id `v` in the original carries, at the same position, the
id `p + v` (the prefix is put in front exactly once, whatever the other ids of the tree are); an
empty id is left as it is.  With `renameRoot = false` this holds for every element other than the
root. -/
theorem cloneElement_ids_prefixed (tag : JSString) (attrs : List Attr) (kids : List Node)
    (p : JSString) (renameRoot : Bool) :
    ∃ clone, cloneElement (.element tag attrs kids) p renameRoot = some clone ∧
      ∀ pos v, (pos = [] → renameRoot = true) →
        attrAt (.element tag attrs kids) pos idAttr = some v →
        (v ≠ [] → attrAt clone pos idAttr = some (p ++ v)) ∧
        (v = [] → attrAt clone pos idAttr = some []) := by
  obtain ⟨clone, hclone, _, hattr⟩ := cloneElement_attrs tag attrs kids p renameRoot
  refine ⟨clone, hclone, ?_⟩
  intro pos v hroot hv
  have hcond : pos ≠ [] ∨ renameRoot = true ∨ idAttr ≠ idAttr := by
    by_cases hp : pos = []
    · exact Or.inr (Or.inl (hroot hp))
    · exact Or.inl hp
  rw [hattr pos idAttr hcond, hv, Option.map_some', rewriteValue_id]
  constructor
  · intro hne; rw [if_pos hne]
  · intro he; rw [if_neg (fun h => h he), he]

/-- C6, as stated, fails for a prefix with white space: in the clone of
`<div id="x" aria-controls="x">` with the prefix `" "` the id of the root is `" x"` and its
`aria-controls` is `"  x"`, whose only token is `x`: the reference no longer names the id. -/
theorem cloneElement_white_prefix_breaks_reference :
    ∃ clone,
      cloneElement
        (.element "div".toList [(idAttr, "x".toList), ("aria-controls".toList, "x".toList)] [])
        " ".toList true = some clone ∧
      tokens "x".toList = ["x".toList] ∧
      attrAt clone [] idAttr = some " x".toList ∧
      attrAt clone [] "aria-controls".toList = some "  x".toList ∧
      tokens "  x".toList = ["x".toList] ∧
      " x".toList ∉ tokens "  x".toList :=
  ⟨_, rfl, by decide, by decide, by decide, by decide, by decide⟩

/-- C6, amended. With `renameRoot = true`, for every element tree and prefix `p`: when the
element at position `t` carries the id `w`, then in the clone the element at `t` carries an id
`w2` such that, for every position `e`: a `for` attribute equal to `w` at `e` reads `w2` in the
clone; a `data-parent`, `data-target` or `href` attribute equal to `#w` at `e` reads `#w2` in the
clone; and, when the prefix contains no white space, wherever the i-th token of an
`aria-controls`, `aria-describedby` or `aria-labelledby` attribute at `e` is `w`, the i-th token
of that attribute in the clone is `w2`. -/
theorem cloneElement_references_resolve (tag : JSString) (attrs : List Attr) (kids : List Node)
    (p : JSString) :
    ∃ clone, cloneElement (.element tag attrs kids) p true = some clone ∧
      ∀ t w, attrAt (.element tag attrs kids) t idAttr = some w →
        ∃ w2, attrAt clone t idAttr = some w2 ∧
          ∀ e,
            (attrAt (.element tag attrs kids) e forAttr = some w →
              attrAt clone e forAttr = some w2) ∧
            (∀ name ∈ selectorAttribs,
              attrAt (.element tag attrs kids) e name = some ('#' :: w) →
              attrAt clone e name = some ('#' :: w2)) ∧
            ((∀ c ∈ p, isWhiteSpace c = false) →
              ∀ name ∈ idListAttribs, ∀ (v : JSString) (i : Nat),
                attrAt (.element tag attrs kids) e name = some v →
                (tokens v)[i]? = some w →
                ∃ v2, attrAt clone e name = some v2 ∧ (tokens v2)[i]? = some w2) := by
  obtain ⟨clone, hclone, _, hattr⟩ := cloneElement_attrs tag attrs kids p true
  refine ⟨clone, hclone, ?_⟩
  intro t w hw
  have hmem : w ≠ [] → w ∈ subtreeIds (stripRoot true (.element tag attrs kids)) :=
    fun hne => mem_renamed_of_id tag attrs kids true t w (fun _ => rfl) hw hne
  refine ⟨if w ≠ [] then p ++ w else w, ?_, ?_⟩
  · rw [hattr t idAttr (Or.inr (Or.inl rfl)), hw, Option.map_some', rewriteValue_id]
  · intro e
    refine ⟨?_, ?_, ?_⟩
    · intro he
      rw [hattr e forAttr (Or.inr (Or.inl rfl)), he, Option.map_some', rewriteValue_for]
      by_cases hne : w = []
      · rw [if_neg (fun h => h.1 hne), if_neg (fun h => h hne)]
      · rw [if_pos ⟨hne, hmem hne⟩, if_pos hne]
    · intro name hname he
      rw [hattr e name (Or.inr (Or.inl rfl)), he, Option.map_some',
        rewriteValue_selector p _ name _ hname]
      by_cases hne : w = []
      · have hnot : ¬ (('#' :: w).head? = some '#' ∧
            ('#' :: w).drop 1 ∈ subtreeIds (stripRoot true (.element tag attrs kids))) := by
          rintro ⟨_, h⟩
          exact ne_nil_of_mem_subtreeIds _ _ h (by simpa using hne)
        rw [if_neg hnot, if_neg (fun h => h hne)]
      · have hyes : ('#' :: w).head? = some '#' ∧
            ('#' :: w).drop 1 ∈ subtreeIds (stripRoot true (.element tag attrs kids)) :=
          ⟨rfl, by simpa using hmem hne⟩
        rw [if_pos hyes, if_pos hne]
        simp
    · intro hp name hname v i he hi
      refine ⟨replaceSpaceSeparated
        (replaceID (subtreeIds (stripRoot true (.element tag attrs kids))) p) v, ?_, ?_⟩
      · rw [hattr e name (Or.inr (Or.inl rfl)), he, Option.map_some',
          rewriteValue_idList p _ name _ hname]
      · rw [tokens_replaceSpaceSeparated _ p v hp, List.getElem?_map, hi, Option.map_some']
        have hne : w ≠ [] := (tokens_valid v w (List.mem_iff_getElem?.2 ⟨i, hi⟩)).1
        rw [if_pos (hmem hne), if_pos hne]

/-- C7, as stated, fails at a root with two attributes named `id`: in the clone of
`<div id="b" id="a"><label for="a"></label>...</div>` with prefix `p` and `renameRoot = false`,
`removeAttribute('id')` removes the first id only; the root is renamed with the id `a`, and the
`for="a"` of the label becomes `pa`, although `a` is the id of no element other than the root. -/
theorem cloneElement_for_second_root_id :
    ∃ clone, cloneElement twoIdTree "p".toList false = some clone ∧
      attrAt twoIdTree [0] forAttr = some "a".toList ∧
      ¬ IsRenamedId twoIdTree false "a".toList ∧
      attrAt clone [0] forAttr = some "pa".toList ∧
      attrAt clone [0] forAttr ≠ some "a".toList := by
  refine ⟨_, rfl, by decide, ?_, by decide, by decide⟩
  intro h
  have hm := (isRenamedId_false_iff _ _ _ _).1 h
  revert hm
  decide

/-- C7, amended. For every element tree, every prefix `p` and either flag, `cloneElement`
returns a clone with an element exactly where the original has one; an element with the `for`
value `v` has, in the clone, the `for` value `p + v` when `v` is a renamed id, that is the
non-empty id some element of the clone carries when the rename pass starts (`IsRenamedAtStart`),
and the value `v` otherwise; an element without a `for` attribute has none in the clone.  When
the root carries at most one attribute named `id`, or `renameRoot` is true, the renamed ids are
the non-empty original ids of the elements, the root counting only when `renameRoot` is
true. -/
theorem cloneElement_for (tag : JSString) (attrs : List Attr) (kids : List Node)
    (p : JSString) (renameRoot : Bool) :
    ∃ clone, cloneElement (.element tag attrs kids) p renameRoot = some clone ∧
      (∀ pos, elementAt clone pos = elementAt (.element tag attrs kids) pos ∧
        (attrAt (.element tag attrs kids) pos forAttr = none →
          attrAt clone pos forAttr = none) ∧
        ∀ v, attrAt (.element tag attrs kids) pos forAttr = some v →
          (IsRenamedAtStart (.element tag attrs kids) renameRoot v →
            attrAt clone pos forAttr = some (p ++ v)) ∧
          (¬ IsRenamedAtStart (.element tag attrs kids) renameRoot v →
            attrAt clone pos forAttr = some v)) ∧
      ((renameRoot = false → atMostOneId attrs) →
        ∀ v, IsRenamedAtStart (.element tag attrs kids) renameRoot v ↔
          IsRenamedId (.element tag attrs kids) renameRoot v) := by
  obtain ⟨clone, hclone, helem, hattr⟩ := cloneElement_attrs tag attrs kids p renameRoot
  refine ⟨clone, hclone, fun pos => ⟨helem pos, ?_, ?_⟩,
    fun h1 v => renamedAtStart_iff_renamedId tag attrs kids renameRoot h1 v⟩
  · intro hnone
    rw [hattr pos forAttr (Or.inr (Or.inr (by decide))), hnone, Option.map_none']
  · intro v hv
    rw [hattr pos forAttr (Or.inr (Or.inr (by decide))), hv, Option.map_some', rewriteValue_for]
    constructor
    · intro hren
      have hm := (mem_renamedAtStart_iff _ renameRoot v).2 hren
      rw [if_pos ⟨ne_nil_of_mem_subtreeIds _ _ hm, hm⟩]
    · intro hren
      rw [if_neg (fun h => hren ((mem_renamedAtStart_iff _ renameRoot v).1 h.2))]

/-- C8, as stated, fails at a root with two attributes named `id`: in the clone of
`<div id="b" id="a">...<a href="#a"></a>...</div>` with prefix `p` and `renameRoot = false` the
value `#a` becomes `#pa`, although `a` is the id of no element other than the root. -/
theorem cloneElement_selector_second_root_id :
    ∃ clone, cloneElement twoIdTree "p".toList false = some clone ∧
      attrAt twoIdTree [1] "href".toList = some "#a".toList ∧
      ¬ IsRenamedId twoIdTree false "a".toList ∧
      attrAt clone [1] "href".toList = some "#pa".toList ∧
      attrAt clone [1] "href".toList ≠ some "#a".toList := by
  refine ⟨_, rfl, by decide, ?_, by decide, by decide⟩
  intro h
  have hm := (isRenamedId_false_iff _ _ _ _).1 h
  revert hm
  decide

/-- C8, amended. For every element tree, every prefix `p`, either flag, and each of the
attributes `data-parent`, `data-target` and `href`: an element with the value `#r`, where `r` is
a renamed id, that is the non-empty id some element of the clone carries when the rename pass
starts (`IsRenamedAtStart`), has the value `#` followed by `p + r` in the clone; with any other
value it has the same value in the clone; and an element without the attribute has none in the
clone.  When the root carries at most one attribute named `id`, or `renameRoot` is true, the
renamed ids are the non-empty original ids of the elements, the root counting only when
`renameRoot` is true. -/
theorem cloneElement_selector (tag : JSString) (attrs : List Attr) (kids : List Node)
    (p : JSString) (renameRoot : Bool) :
    ∃ clone, cloneElement (.element tag attrs kids) p renameRoot = some clone ∧
      (∀ pos, ∀ name ∈ selectorAttribs,
        (attrAt (.element tag attrs kids) pos name = none → attrAt clone pos name = none) ∧
        ∀ v, attrAt (.element tag attrs kids) pos name = some v →
          (∀ r, v = '#' :: r → IsRenamedAtStart (.element tag attrs kids) renameRoot r →
            attrAt clone pos name = some ('#' :: (p ++ r))) ∧
          ((∀ r, v = '#' :: r → ¬ IsRenamedAtStart (.element tag attrs kids) renameRoot r) →
            attrAt clone pos name = some v)) ∧
      ((renameRoot = false → atMostOneId attrs) →
        ∀ v, IsRenamedAtStart (.element tag attrs kids) renameRoot v ↔
          IsRenamedId (.element tag attrs kids) renameRoot v) := by
  obtain ⟨clone, hclone, _, hattr⟩ := cloneElement_attrs tag attrs kids p renameRoot
  refine ⟨clone, hclone, fun pos name hname => ⟨?_, ?_⟩,
    fun h1 v => renamedAtStart_iff_renamedId tag attrs kids renameRoot h1 v⟩
  · intro hnone
    rw [hattr pos name (Or.inr (Or.inr (ne_idAttr_of_mem name (Or.inr (Or.inl hname))))),
      hnone, Option.map_none']
  · intro v hv
    rw [hattr pos name (Or.inr (Or.inr (ne_idAttr_of_mem name (Or.inr (Or.inl hname))))),
      hv, Option.map_some', rewriteValue_selector p _ name v hname]
    constructor
    · intro r hr hren
      subst hr
      have hm := (mem_renamedAtStart_iff _ renameRoot r).2 hren
      rw [if_pos ⟨rfl, by simpa using hm⟩]
      simp
    · intro hnot
      rw [if_neg]
      rintro ⟨hhead, hm⟩
      cases v with
      | nil => simp at hhead
      | cons c r =>
        have hc : c = '#' := by simpa using hhead
        subst hc
        exact hnot r rfl ((mem_renamedAtStart_iff _ renameRoot r).1 (by simpa using hm))

/-- C9, as stated, fails at a root with two attributes named `id`: in the clone of
`<div id="b" id="a">...<span aria-controls="a"></span></div>` with the prefix `p`, which has no
white space, and `renameRoot = false` the only token of `aria-controls` becomes `pa`, although
`a` is the id of no element other than the root. -/
theorem cloneElement_idList_second_root_id :
    ∃ clone, cloneElement twoIdTree "p".toList false = some clone ∧
      (∀ c ∈ "p".toList, isWhiteSpace c = false) ∧
      attrAt twoIdTree [2] "aria-controls".toList = some "a".toList ∧
      tokens "a".toList = ["a".toList] ∧
      ¬ IsRenamedId twoIdTree false "a".toList ∧
      attrAt clone [2] "aria-controls".toList = some " pa".toList ∧
      tokens " pa".toList = ["pa".toList] ∧
      tokens " pa".toList ≠ ["a".toList] := by
  refine ⟨_, rfl, by decide, by decide, by decide, ?_, by decide, by decide, by decide⟩
  intro h
  have hm := (isRenamedId_false_iff _ _ _ _).1 h
  revert hm
  decide

/-- C9, amended. For every element tree, every prefix `p` without white space, either flag, and
each of `aria-controls`, `aria-describedby` and `aria-labelledby`: the tokens of the value in the
clone are the tokens of the original value, in the same order and number, each token `t`
replaced by `p + t` when `t` is a renamed id, that is the non-empty id some element of the clone
carries when the rename pass starts (`IsRenamedAtStart`), and left as `t` otherwise.  When the
root carries at most one attribute named `id`, or `renameRoot` is true, the renamed ids are the
non-empty original ids of the elements, the root counting only when `renameRoot` is true. -/
theorem cloneElement_idList_tokens (tag : JSString) (attrs : List Attr) (kids : List Node)
    (p : JSString) (renameRoot : Bool) (hp : ∀ c ∈ p, isWhiteSpace c = false) :
    ∃ clone, cloneElement (.element tag attrs kids) p renameRoot = some clone ∧
      (∀ pos, ∀ name ∈ idListAttribs, ∀ v,
        attrAt (.element tag attrs kids) pos name = some v →
        ∃ v2, attrAt clone pos name = some v2 ∧
          List.Forall₂
            (fun t t2 =>
              (IsRenamedAtStart (.element tag attrs kids) renameRoot t → t2 = p ++ t) ∧
              (¬ IsRenamedAtStart (.element tag attrs kids) renameRoot t → t2 = t))
            (tokens v) (tokens v2)) ∧
      ((renameRoot = false → atMostOneId attrs) →
        ∀ v, IsRenamedAtStart (.element tag attrs kids) renameRoot v ↔
          IsRenamedId (.element tag attrs kids) renameRoot v) := by
  obtain ⟨clone, hclone, _, hattr⟩ := cloneElement_attrs tag attrs kids p renameRoot
  refine ⟨clone, hclone, fun pos name hname v hv => ?_,
    fun h1 v => renamedAtStart_iff_renamedId tag attrs kids renameRoot h1 v⟩
  refine ⟨replaceSpaceSeparated
    (replaceID (subtreeIds (stripRoot renameRoot (.element tag attrs kids))) p) v, ?_, ?_⟩
  · rw [hattr pos name (Or.inr (Or.inr (ne_idAttr_of_mem name (Or.inr (Or.inr hname))))),
      hv, Option.map_some', rewriteValue_idList p _ name v hname]
  · rw [tokens_replaceSpaceSeparated _ p v hp, List.forall₂_map_right_iff, List.forall₂_same]
    intro t _
    constructor
    · intro hren
      rw [if_pos ((mem_renamedAtStart_iff _ renameRoot t).2 hren)]
    · intro hren
      rw [if_neg (fun h => hren ((mem_renamedAtStart_iff _ renameRoot t).1 h))]

/-- C10, as stated, fails: in the clone of `<div aria-controls="x">`, a tree without any id, the
value of `aria-controls` is `" x"`, with a space put before the token, not `"x"`. -/
theorem cloneElement_idList_layout_changed :
    ∃ clone,
      cloneElement (.element "div".toList [("aria-controls".toList, "x".toList)] [])
        "p".toList true = some clone ∧
      (∀ t, ¬ IsRenamedId
        (.element "div".toList [("aria-controls".toList, "x".toList)] []) true t) ∧
      attrAt (.element "div".toList [("aria-controls".toList, "x".toList)] []) []
        "aria-controls".toList = some "x".toList ∧
      attrAt clone [] "aria-controls".toList = some " x".toList ∧
      attrAt clone [] "aria-controls".toList ≠ some "x".toList := by
  refine ⟨_, rfl, ?_, by decide, by decide, by decide⟩
  intro t ht
  have hm := (mem_renamed_iff "div".toList [("aria-controls".toList, "x".toList)] [] true
    (fun h => by cases h) t).2 ht
  simp [stripRoot, subtreeIds, subtreeIdsList, ownIds, getAttribute, idAttr] at hm

/-- C10, amended. For every element tree, every prefix `p`, either flag, and each of
`aria-controls`, `aria-describedby` and `aria-labelledby` with original value `v`: the value in
the clone is, for each token of `v` in order, one space followed by the token (with `p` in front
when the token is a renamed id, that is the non-empty id some element of the clone carries when
the rename pass starts, `IsRenamedAtStart`; unchanged otherwise), and then the trailing white
space of `v` exactly as in `v`.  So trailing white space is kept, a value without tokens is
unchanged, and the white space before each token, leading or between tokens, present or not,
becomes one space.  An element without the attribute has none in the clone.  When the root
carries at most one attribute named `id`, or `renameRoot` is true, the renamed ids are the
non-empty original ids of the elements, the root counting only when `renameRoot` is true. -/
theorem cloneElement_idList_layout (tag : JSString) (attrs : List Attr) (kids : List Node)
    (p : JSString) (renameRoot : Bool) :
    ∃ clone, cloneElement (.element tag attrs kids) p renameRoot = some clone ∧
      (∀ pos, ∀ name ∈ idListAttribs,
        (attrAt (.element tag attrs kids) pos name = none → attrAt clone pos name = none) ∧
        ∀ v, attrAt (.element tag attrs kids) pos name = some v →
          (tokens v = [] → attrAt clone pos name = some v) ∧
          ∃ ts,
            List.Forall₂
              (fun t t2 =>
                (IsRenamedAtStart (.element tag attrs kids) renameRoot t → t2 = p ++ t) ∧
                (¬ IsRenamedAtStart (.element tag attrs kids) renameRoot t → t2 = t))
              (tokens v) ts ∧
            attrAt clone pos name =
              some ((ts.map (fun t => ' ' :: t)).flatten ++ trailingWhiteSpace v)) ∧
      ((renameRoot = false → atMostOneId attrs) →
        ∀ v, IsRenamedAtStart (.element tag attrs kids) renameRoot v ↔
          IsRenamedId (.element tag attrs kids) renameRoot v) := by
  obtain ⟨clone, hclone, _, hattr⟩ := cloneElement_attrs tag attrs kids p renameRoot
  refine ⟨clone, hclone, fun pos name hname => ⟨?_, ?_⟩,
    fun h1 v => renamedAtStart_iff_renamedId tag attrs kids renameRoot h1 v⟩
  · intro hnone
    rw [hattr pos name (Or.inr (Or.inr (ne_idAttr_of_mem name (Or.inr (Or.inr hname))))),
      hnone, Option.map_none']
  · intro v hv
    have hval : attrAt clone pos name = some
        ((((tokens v).map (fun t =>
          if t ∈ subtreeIds (stripRoot renameRoot (.element tag attrs kids)) then p ++ t
          else t)).map (fun t => ' ' :: t)).flatten ++ trailingWhiteSpace v) := by
      rw [hattr pos name (Or.inr (Or.inr (ne_idAttr_of_mem name (Or.inr (Or.inr hname))))),
        hv, Option.map_some', rewriteValue_idList p _ name v hname,
        replaceSpaceSeparated_replaceID]
    refine ⟨?_, _, ?_, hval⟩
    · intro hnil
      have hall : ∀ c ∈ v, isWhiteSpace c = true := by
        by_contra hcon
        have hne : (v.dropWhile isWhiteSpace).takeWhile notWhiteSpace ≠ [] :=
          fun h => hcon (all_white_of_no_token v h)
        have hdec := tokens_decompose (v.takeWhile isWhiteSpace)
          ((v.dropWhile isWhiteSpace).takeWhile notWhiteSpace)
          ((v.dropWhile isWhiteSpace).dropWhile notWhiteSpace)
          (fun c hc => List.mem_takeWhile_imp hc)
          (fun c hc => (notWhiteSpace_eq_true c).1 (List.mem_takeWhile_imp hc)) hne
          (by
            rcases dropWhile_head_or_nil notWhiteSpace (v.dropWhile isWhiteSpace) with
              h | ⟨c, r, h, hc⟩
            · exact Or.inl h
            · exact Or.inr ⟨c, r, h, (notWhiteSpace_eq_false c).1 hc⟩)
        rw [List.takeWhile_append_dropWhile, List.takeWhile_append_dropWhile, hnil] at hdec
        exact List.noConfusion hdec
      rw [hval, hnil, trailingWhiteSpace_white v hall]
      rfl
    · rw [List.forall₂_map_right_iff, List.forall₂_same]
      intro t _
      constructor
      · intro hren
        rw [if_pos ((mem_renamedAtStart_iff _ renameRoot t).2 hren)]
      · intro hren
        rw [if_neg (fun h => hren ((mem_renamedAtStart_iff _ renameRoot t).1 h))]

/-! ## The theorems at concrete trees -/

/-- The statement of C5, amended, at the example tree with the prefix `p1-` and
`renameRoot = true`: the ids `x` and `y` become `p1-x` and `p1-y`. -/
theorem cloneElement_ids_prefixed_witness :
    ∃ clone, cloneElement exampleTree "p1-".toList true = some clone ∧
      attrAt clone [] idAttr = some "p1-x".toList ∧
      attrAt clone [1] idAttr = some "p1-y".toList := by
  obtain ⟨clone, hclone, hall⟩ :=
    cloneElement_ids_prefixed "div".toList [(idAttr, "x".toList)]
      [ .element "label".toList [(forAttr, "x".toList)] [.text "t".toList],
        .element "span".toList [(idAttr, "y".toList), ("aria-controls".toList, "x y".toList)]
          [.text "s".toList] ]
      "p1-".toList true
  exact ⟨clone, hclone,
    (hall [] "x".toList (fun _ => rfl) (by decide)).1 (by decide),
    (hall [1] "y".toList (by decide) (by decide)).1 (by decide)⟩

/-- The statement of C6, amended, at the example tree with the prefix `p1-`: the `for` of the
label and the first token of `aria-controls` of the span, which both name the root id `x`, name
the id of the copy of the root in the clone. -/
theorem cloneElement_references_resolve_witness :
    ∃ clone, cloneElement exampleTree "p1-".toList true = some clone ∧
      ∃ w2, attrAt clone [] idAttr = some w2 ∧
        attrAt clone [0] forAttr = some w2 ∧
        ∃ v2, attrAt clone [1] "aria-controls".toList = some v2 ∧ (tokens v2)[0]? = some w2 := by
  obtain ⟨clone, hclone, hall⟩ :=
    cloneElement_references_resolve "div".toList [(idAttr, "x".toList)]
      [ .element "label".toList [(forAttr, "x".toList)] [.text "t".toList],
        .element "span".toList [(idAttr, "y".toList), ("aria-controls".toList, "x y".toList)]
          [.text "s".toList] ]
      "p1-".toList
  obtain ⟨w2, hw2, href⟩ := hall [] "x".toList (by decide)
  exact ⟨clone, hclone, w2, hw2, (href [0]).1 (by decide),
    (href [1]).2.2 (by decide) "aria-controls".toList (by decide) "x y".toList 0
      (by decide) (by decide)⟩

/-- The statement of C7, amended, at the example tree with `renameRoot = false`: the `for="x"`
of the label is kept, the root id `x` not being renamed, and, the root carrying one id, the
renamed ids are the ids of the elements other than the root. -/
theorem cloneElement_for_witness :
    atMostOneId [(idAttr, "x".toList)] ∧
    ∃ clone, cloneElement exampleTree "p1-".toList false = some clone ∧
      attrAt clone [0] forAttr = some "x".toList ∧
      ∀ v, IsRenamedAtStart exampleTree false v ↔ IsRenamedId exampleTree false v := by
  obtain ⟨clone, hclone, hall, hiff⟩ :=
    cloneElement_for "div".toList [(idAttr, "x".toList)]
      [ .element "label".toList [(forAttr, "x".toList)] [.text "t".toList],
        .element "span".toList [(idAttr, "y".toList), ("aria-controls".toList, "x y".toList)]
          [.text "s".toList] ]
      "p1-".toList false
  refine ⟨by decide, clone, hclone, ?_, hiff (fun _ => by decide)⟩
  refine ((hall [0]).2.2 "x".toList (by decide)).2 ?_
  intro hren
  exact absurd ((mem_renamedAtStart_iff _ false _).2 hren) (by decide)

/-- The statement of C8, amended, at a tree with `href="#y"` and `renameRoot = false`: the value
becomes `#p-y`. -/
theorem cloneElement_selector_witness :
    ∃ clone, cloneElement selectorTree "p-".toList false = some clone ∧
      attrAt clone [0] "href".toList = some "#p-y".toList := by
  obtain ⟨clone, hclone, hall, _⟩ :=
    cloneElement_selector "div".toList [(idAttr, "x".toList)]
      [ .element "a".toList [("href".toList, "#y".toList)] [],
        .element "span".toList [(idAttr, "y".toList)] [] ]
      "p-".toList false
  refine ⟨clone, hclone, ?_⟩
  exact ((hall [0] "href".toList (by decide)).2 "#y".toList (by decide)).1 "y".toList rfl
    ⟨[1], by decide, by decide⟩

/-- The statement of C9, amended, at the example tree with the prefix `p1-` and
`renameRoot = false`: the prefix has no white space, and the tokens of `aria-controls` of the
span are rewritten one by one. -/
theorem cloneElement_idList_tokens_witness :
    (∀ c ∈ "p1-".toList, isWhiteSpace c = false) ∧
    ∃ clone, cloneElement exampleTree "p1-".toList false = some clone ∧
      ∃ v2, attrAt clone [1] "aria-controls".toList = some v2 ∧
        List.Forall₂
          (fun t t2 =>
            (IsRenamedAtStart exampleTree false t → t2 = "p1-".toList ++ t) ∧
            (¬ IsRenamedAtStart exampleTree false t → t2 = t))
          (tokens "x y".toList) (tokens v2) := by
  obtain ⟨clone, hclone, hall, _⟩ :=
    cloneElement_idList_tokens "div".toList [(idAttr, "x".toList)]
      [ .element "label".toList [(forAttr, "x".toList)] [.text "t".toList],
        .element "span".toList [(idAttr, "y".toList), ("aria-controls".toList, "x y".toList)]
          [.text "s".toList] ]
      "p1-".toList false (by decide)
  exact ⟨by decide, clone, hclone,
    hall [1] "aria-controls".toList (by decide) "x y".toList (by decide)⟩

/-- The statement of C10, amended, at the example tree with the prefix `p1-` and
`renameRoot = false`: `aria-controls="x y"` of the span becomes `" x p1-y"`. -/
theorem cloneElement_idList_layout_witness :
    ∃ clone, cloneElement exampleTree "p1-".toList false = some clone ∧
      attrAt clone [1] "aria-controls".toList = some " x p1-y".toList ∧
      ∃ ts,
        List.Forall₂
          (fun t t2 =>
            (IsRenamedAtStart exampleTree false t → t2 = "p1-".toList ++ t) ∧
            (¬ IsRenamedAtStart exampleTree false t → t2 = t))
          (tokens "x y".toList) ts ∧
        attrAt clone [1] "aria-controls".toList =
          some ((ts.map (fun t => ' ' :: t)).flatten ++ trailingWhiteSpace "x y".toList) := by
  obtain ⟨clone, hclone, hall, _⟩ :=
    cloneElement_idList_layout "div".toList [(idAttr, "x".toList)]
      [ .element "label".toList [(forAttr, "x".toList)] [.text "t".toList],
        .element "span".toList [(idAttr, "y".toList), ("aria-controls".toList, "x y".toList)]
          [.text "s".toList] ]
      "p1-".toList false
  have hval : attrAt clone [1] "aria-controls".toList = some " x p1-y".toList := by
    have h1 : cloneElement exampleTree "p1-".toList false = some clone := hclone
    have h2 : cloneElement exampleTree "p1-".toList false =
        some (.element "div".toList []
          [ .element "label".toList [(forAttr, "x".toList)] [.text "t".toList],
            .element "span".toList
              [(idAttr, "p1-y".toList), ("aria-controls".toList, " x p1-y".toList)]
              [.text "s".toList] ]) := rfl
    rw [h2] at h1
    injection h1 with h1
    subst h1
    decide
  exact ⟨clone, hclone, hval,
    ((hall [1] "aria-controls".toList (by decide)).2 "x y".toList (by decide)).2⟩

/-! ## Theorems: more on `escapeHTML` -/

theorem escapeHTML_eq_self (s : JSString) (h : ∀ c ∈ s, reservedClass c = false) :
    escapeHTML s = s := by
  induction s with
  | nil => rfl
  | cons c s ih =>
    rw [escapeHTML_cons, entityOf_of_not_reserved c (h c (by simp)),
      ih (fun x hx => h x (List.mem_cons_of_mem _ hx))]
    rfl

theorem entityOf_length_pos (c : Char) : 1 ≤ (entityOf c).length := by
  cases h : reservedClass c
  · rw [entityOf_of_not_reserved c h]; simp
  · obtain ⟨tail, ht, _, _⟩ := entityOf_reserved_shape c h
    rw [ht]; simp

theorem entityOf_length_reserved (c : Char) (h : reservedClass c = true) :
    2 ≤ (entityOf c).length := by
  rcases (reservedClass_iff c).1 h with h | h | h | h | h <;> subst h <;> decide

theorem escapeHTML_length_ge (s : JSString) : s.length ≤ (escapeHTML s).length := by
  induction s with
  | nil => simp [escapeHTML_nil]
  | cons c s ih =>
    rw [escapeHTML_cons, List.length_append, List.length_cons]
    have := entityOf_length_pos c
    omega

theorem escapeHTML_length_gt (s : JSString) (h : ∃ c ∈ s, reservedClass c = true) :
    s.length < (escapeHTML s).length := by
  induction s with
  | nil => obtain ⟨c, hc, _⟩ := h; simp at hc
  | cons d s ih =>
    rw [escapeHTML_cons, List.length_append, List.length_cons]
    obtain ⟨c, hc, hres⟩ := h
    rcases List.mem_cons.1 hc with e | hc
    · subst e
      have h1 := entityOf_length_reserved c hres
      have h2 := escapeHTML_length_ge s
      omega
    · have h1 := entityOf_length_pos d
      have h2 := ih ⟨c, hc, hres⟩
      omega

theorem amp_mem_escapeHTML (s : JSString) (h : ∃ c ∈ s, reservedClass c = true) :
    '&' ∈ escapeHTML s := by
  induction s with
  | nil => obtain ⟨c, hc, _⟩ := h; simp at hc
  | cons d s ih =>
    rw [escapeHTML_cons, List.mem_append]
    obtain ⟨c, hc, hres⟩ := h
    rcases List.mem_cons.1 hc with e | hc
    · subst e
      obtain ⟨tail, ht, _, _⟩ := entityOf_reserved_shape c hres
      exact Or.inl (by rw [ht]; simp)
    · exact Or.inr (ih ⟨c, hc, hres⟩)

theorem escapeHTML_of_only_amp (t : JSString)
    (h : ∀ c ∈ t, c ≠ '<' ∧ c ≠ '>' ∧ c ≠ dquote ∧ c ≠ squote) :
    escapeHTML t = t.flatMap (fun c => if c = '&' then "&amp;".toList else [c]) := by
  induction t with
  | nil => rfl
  | cons c t ih =>
    rw [escapeHTML_cons, ih (fun x hx => h x (List.mem_cons_of_mem _ hx)), List.flatMap_cons]
    congr 1
    obtain ⟨h1, h2, h3, h4⟩ := h c (by simp)
    by_cases hc : c = '&'
    · subst hc; rfl
    · simp [entityOf, hc, h1, h2, h3, h4]

/-- C15. For every string `s`, `escapeHTML (escapeHTML s) = escapeHTML s` exactly when `s`
contains none of the five characters `& < > " '`; the second application replaces every `&` of
the first result by `&amp;` and leaves the other characters (`"<"` gives `"&lt;"`, then
`"&amp;lt;"`), so `escapeHTML` is not idempotent. -/
theorem escapeHTML_idempotent_iff :
    (∀ s : JSString,
      escapeHTML (escapeHTML s) = escapeHTML s ↔ ∀ c ∈ s, reservedClass c = false) ∧
    (∀ s : JSString, escapeHTML (escapeHTML s) =
      (escapeHTML s).flatMap (fun c => if c = '&' then "&amp;".toList else [c])) ∧
    escapeHTML "<".toList = "&lt;".toList ∧
    escapeHTML (escapeHTML "<".toList) = "&amp;lt;".toList ∧
    escapeHTML (escapeHTML "<".toList) ≠ escapeHTML "<".toList := by
  refine ⟨fun s => ⟨fun h => ?_, fun h => ?_⟩, fun s => ?_, by decide, by decide, by decide⟩
  · by_contra hcon
    have hex : ∃ c ∈ s, reservedClass c = true := by
      by_contra hno
      apply hcon
      intro c hc
      cases hr : reservedClass c
      · rfl
      · exact absurd ⟨c, hc, hr⟩ hno
    have hamp : ∃ c ∈ escapeHTML s, reservedClass c = true :=
      ⟨'&', amp_mem_escapeHTML s hex, by decide⟩
    have hlt := escapeHTML_length_gt (escapeHTML s) hamp
    rw [h] at hlt
    exact Nat.lt_irrefl _ hlt
  · rw [escapeHTML_eq_self s h, escapeHTML_eq_self s h]
  · exact escapeHTML_of_only_amp (escapeHTML s) (fun c hc => escapeHTML_no_raw s c hc)

/-- C19. `escapeHTML` of the empty string is the empty string, and for all strings `a` and `b`,
`escapeHTML (a + b)` is `escapeHTML a` followed by `escapeHTML b`. -/
theorem escapeHTML_concat_hom :
    escapeHTML [] = [] ∧
    ∀ a b : JSString, escapeHTML (a ++ b) = escapeHTML a ++ escapeHTML b :=
  ⟨escapeHTML_nil, escapeHTML_append⟩

/-! ## Theorems: the remaining claims about `cloneElement` in the tree model -/

theorem cloneElement_attrs_stripped (tag : JSString) (attrs : List Attr) (kids : List Node)
    (p : JSString) (renameRoot : Bool) :
    ∃ clone, cloneElement (.element tag attrs kids) p renameRoot = some clone ∧
      (∀ pos, elementAt clone pos = elementAt (.element tag attrs kids) pos) ∧
      ∀ pos name, attrAt clone pos name =
        (attrAt (stripRoot renameRoot (.element tag attrs kids)) pos name).map
          (rewriteValue p (subtreeIds (stripRoot renameRoot (.element tag attrs kids))) name) := by
  refine ⟨_, cloneElement_eq tag attrs kids p renameRoot, ?_, ?_⟩
  · intro pos
    rw [elementAt_mapAttrs, elementAt_mapAttrs, elementAt_stripRoot]
  · intro pos name
    rw [attrAt_rewritten]

/-- C11, as stated, fails: in the clone of the worked example the value of `aria-controls` of
the span is `" p1-x p1-y"`, with a leading space, not `"p1-x p1-y"`. -/
theorem cloneElement_example_leading_space :
    ∃ clone, cloneElement exampleTree "p1-".toList true = some clone ∧
      attrAt clone [1] "aria-controls".toList = some " p1-x p1-y".toList ∧
      attrAt clone [1] "aria-controls".toList ≠ some "p1-x p1-y".toList :=
  ⟨_, rfl, by decide, by decide⟩

/-- C11, amended. For the tree of the worked example, `cloneElement(el, "p1-", true)` returns
the tree whose div has the id `p1-x`, whose span has the id `p1-y`, whose label has the `for`
value `p1-x`, and whose span has the `aria-controls` value `" p1-x p1-y"`: one space before each
token, so its tokens are exactly `p1-x` and `p1-y`, and no trailing character. -/
theorem cloneElement_worked_example :
    cloneElement exampleTree "p1-".toList true = some exampleClone ∧
    attrAt exampleClone [] idAttr = some "p1-x".toList ∧
    attrAt exampleClone [1] idAttr = some "p1-y".toList ∧
    attrAt exampleClone [0] forAttr = some "p1-x".toList ∧
    attrAt exampleClone [1] "aria-controls".toList = some " p1-x p1-y".toList ∧
    tokens " p1-x p1-y".toList = ["p1-x".toList, "p1-y".toList] :=
  ⟨rfl, by decide, by decide, by decide, by decide, by decide⟩

/-- C12, as stated, fails at a root with two attributes named `id`: in the clone of
`<div id="b" id="a">...</div>` with prefix `p` and `renameRoot = false`,
`removeAttribute('id')` removes the first id only and the root of the clone has the id `pa`. -/
theorem cloneElement_root_keeps_second_id :
    ∃ clone, cloneElement twoIdTree "p".toList false = some clone ∧
      attrAt clone [] idAttr = some "pa".toList ∧
      attrAt clone [] idAttr ≠ none :=
  ⟨_, rfl, by decide, by decide⟩

/-- C12, amended. For every element tree and prefix `p`, `cloneElement` returns a clone whose
root is an element; with `renameRoot = false` the root of the clone has no id attribute exactly
when the root of the original carries at most one attribute named `id` (so whenever its
attribute names are pairwise distinct, whether or not it has an id); with `renameRoot = true`
the root of the clone has an id attribute exactly when the root of the original has one. -/
theorem cloneElement_root_id (tag : JSString) (attrs : List Attr) (kids : List Node)
    (p : JSString) (renameRoot : Bool) :
    ∃ clone, cloneElement (.element tag attrs kids) p renameRoot = some clone ∧
      elementAt clone [] = true ∧
      (renameRoot = false → (attrAt clone [] idAttr = none ↔ atMostOneId attrs)) ∧
      (renameRoot = true →
        (attrAt clone [] idAttr).isSome = (getAttribute attrs idAttr).isSome) ∧
      (distinctNames attrs → atMostOneId attrs) := by
  obtain ⟨clone, hclone, helem, hattr⟩ := cloneElement_attrs_stripped tag attrs kids p renameRoot
  refine ⟨clone, hclone, ?_, ?_, ?_, atMostOneId_of_distinctNames attrs⟩
  · rw [helem]; rfl
  · intro hf
    subst hf
    rw [hattr, Option.map_eq_none']
    exact getAttribute_removeAttribute_self_iff attrs idAttr
  · intro ht
    subst ht
    rw [hattr]
    simp [attrAt, nodeAt, stripRoot]

/-- The statement of C12, amended, at the example tree with `renameRoot = false`: the root
carries one id and the root of the clone has no id. -/
theorem cloneElement_root_id_witness :
    atMostOneId [(idAttr, "x".toList)] ∧
    ∃ clone, cloneElement exampleTree "p1-".toList false = some clone ∧
      attrAt exampleTree [] idAttr = some "x".toList ∧
      attrAt clone [] idAttr = none := by
  obtain ⟨clone, hclone, _, hnone, _⟩ :=
    cloneElement_root_id "div".toList [(idAttr, "x".toList)]
      [ .element "label".toList [(forAttr, "x".toList)] [.text "t".toList],
        .element "span".toList [(idAttr, "y".toList), ("aria-controls".toList, "x y".toList)]
          [.text "s".toList] ]
      "p1-".toList false
  exact ⟨by decide, clone, hclone, by decide, (hnone rfl).2 (by decide)⟩

theorem removeAttribute_eq_self (attrs : List Attr) (n : JSString)
    (h : getAttribute attrs n = none) : removeAttribute attrs n = attrs := by
  induction attrs with
  | nil => rfl
  | cons a attrs ih =>
    obtain ⟨k, w⟩ := a
    by_cases hk : k = n
    · simp [getAttribute, hk] at h
    · simp only [getAttribute, hk, if_false] at h
      simp [removeAttribute, hk, ih h]

theorem removeAttribute_eq_filter (attrs : List Attr) (n : JSString)
    (h : distinctNames attrs) :
    removeAttribute attrs n = attrs.filter (fun a => decide (a.1 ≠ n)) := by
  induction attrs with
  | nil => rfl
  | cons a attrs ih =>
    obtain ⟨k, w⟩ := a
    have h' : k ∉ attrs.map Prod.fst ∧ distinctNames attrs := by
      simpa [distinctNames] using h
    by_cases hk : k = n
    · subst hk
      have hall : ∀ a ∈ attrs, decide (a.1 ≠ k) = true := by
        intro a ha
        have : a.1 ≠ k := fun e => h'.1 (e ▸ List.mem_map_of_mem Prod.fst ha)
        simpa using this
      have hfil := List.filter_eq_self.2 hall
      simp only [removeAttribute, if_true, List.filter_cons]
      rw [hfil]
      simp
    · simp [removeAttribute, hk, List.filter_cons, ih h'.2]

/-- C17. For every element tree and prefix `p`, `cloneElement(el, p, false)` is
`cloneElement(el2, p, true)`, where `el2` is `el` after `removeAttribute('id')` on its root;
when the attribute names of the root are pairwise distinct, `el2` is `el` with every id attribute
taken off its root; and when the root of `el` has no id attribute,
`cloneElement(el, p, false) = cloneElement(el, p, true)`. -/
theorem cloneElement_false_as_true (tag : JSString) (attrs : List Attr) (kids : List Node)
    (p : JSString) :
    cloneElement (.element tag attrs kids) p false =
      cloneElement (.element tag (removeAttribute attrs idAttr) kids) p true ∧
    (distinctNames attrs →
      cloneElement (.element tag attrs kids) p false =
        cloneElement (removeRootId (.element tag attrs kids)) p true) ∧
    (getAttribute attrs idAttr = none →
      cloneElement (.element tag attrs kids) p false =
        cloneElement (.element tag attrs kids) p true) := by
  have h1 : cloneElement (.element tag attrs kids) p false =
      cloneElement (.element tag (removeAttribute attrs idAttr) kids) p true := rfl
  refine ⟨h1, ?_, ?_⟩
  · intro hwf
    rw [h1, removeRootId, removeAttribute_eq_filter attrs idAttr hwf]
  · intro hnone
    rw [h1, removeAttribute_eq_self attrs idAttr hnone]

/-- The statement of C17 at the example tree: its root has distinct attribute names, and the
clone with `renameRoot = false` is the clone, with `renameRoot = true`, of the tree without the
root id. -/
theorem cloneElement_false_as_true_witness :
    distinctNames [(idAttr, "x".toList)] ∧
    cloneElement exampleTree "p1-".toList false =
      cloneElement (removeRootId exampleTree) "p1-".toList true ∧
    removeRootId exampleTree ≠ exampleTree ∧
    (cloneElement exampleTree "p1-".toList false).isSome = true :=
  ⟨by decide,
   (cloneElement_false_as_true "div".toList [(idAttr, "x".toList)]
      [ .element "label".toList [(forAttr, "x".toList)] [.text "t".toList],
        .element "span".toList [(idAttr, "y".toList), ("aria-controls".toList, "x y".toList)]
          [.text "s".toList] ]
      "p1-".toList).2.1 (by decide),
   by
     intro h
     have := congrArg (fun n => attrAt n [] idAttr) h
     revert this
     decide,
   by decide⟩

/-- C18. For every element tree and prefix `p`, `cloneElement(el, p, true)` returns a clone in
which an element has an id exactly where the original has one, and two elements that carry
different ids in the original carry different ids in the clone; hence, when the ids of the
original are pairwise distinct, so are the ids of the clone. -/
theorem cloneElement_ids_distinct (tag : JSString) (attrs : List Attr) (kids : List Node)
    (p : JSString) :
    ∃ clone, cloneElement (.element tag attrs kids) p true = some clone ∧
      (∀ pos, (attrAt clone pos idAttr).isSome =
        (attrAt (.element tag attrs kids) pos idAttr).isSome) ∧
      (∀ pos1 pos2 v1 v2,
        attrAt (.element tag attrs kids) pos1 idAttr = some v1 →
        attrAt (.element tag attrs kids) pos2 idAttr = some v2 → v1 ≠ v2 →
        ∃ w1 w2, attrAt clone pos1 idAttr = some w1 ∧ attrAt clone pos2 idAttr = some w2 ∧
          w1 ≠ w2) ∧
      ((∀ pos1 pos2 v1 v2, pos1 ≠ pos2 →
          attrAt (.element tag attrs kids) pos1 idAttr = some v1 →
          attrAt (.element tag attrs kids) pos2 idAttr = some v2 → v1 ≠ v2) →
        ∀ pos1 pos2 w1 w2, pos1 ≠ pos2 →
          attrAt clone pos1 idAttr = some w1 → attrAt clone pos2 idAttr = some w2 →
          w1 ≠ w2) := by
  obtain ⟨clone, hclone, _, hattr⟩ := cloneElement_attrs tag attrs kids p true
  have hid : ∀ pos, attrAt clone pos idAttr =
      (attrAt (.element tag attrs kids) pos idAttr).map
        (fun v => if v ≠ [] then p ++ v else v) := by
    intro pos
    rw [hattr pos idAttr (Or.inr (Or.inl rfl)), funext (rewriteValue_id p _)]
  have hinj : ∀ v1 v2 : JSString, v1 ≠ v2 →
      (if v1 ≠ [] then p ++ v1 else v1) ≠ (if v2 ≠ [] then p ++ v2 else v2) := by
    intro v1 v2 hne
    by_cases h1 : v1 = [] <;> by_cases h2 : v2 = []
    · exact absurd (h1.trans h2.symm) hne
    · subst h1; simp [h2]
    · subst h2; simp [h1]
    · simp only [ne_eq, h1, h2, not_false_eq_true, if_true]
      exact fun h => hne (List.append_cancel_left h)
  refine ⟨clone, hclone, ?_, ?_, ?_⟩
  · intro pos
    rw [hid pos]
    cases attrAt (.element tag attrs kids) pos idAttr <;> rfl
  · intro pos1 pos2 v1 v2 h1 h2 hne
    exact ⟨_, _, by rw [hid pos1, h1, Option.map_some'], by rw [hid pos2, h2, Option.map_some'],
      hinj v1 v2 hne⟩
  · intro hdist pos1 pos2 w1 w2 hpos h1 h2
    rw [hid pos1] at h1
    rw [hid pos2] at h2
    cases hv1 : attrAt (.element tag attrs kids) pos1 idAttr with
    | none => rw [hv1] at h1; simp at h1
    | some v1 =>
      cases hv2 : attrAt (.element tag attrs kids) pos2 idAttr with
      | none => rw [hv2] at h2; simp at h2
      | some v2 =>
        rw [hv1, Option.map_some', Option.some.injEq] at h1
        rw [hv2, Option.map_some', Option.some.injEq] at h2
        rw [← h1, ← h2]
        exact hinj v1 v2 (hdist pos1 pos2 v1 v2 hpos hv1 hv2)

/-- C13, as stated, fails when a descendant carries the id of the root: in the clone of
`<div id="x"><span id="x"></span><label for="x"></label></div>` with `renameRoot = false` the
id `x` is added to `renamedIDs` by the span, and the `for="x"` of the label becomes `p-x`. -/
theorem cloneElement_shared_root_id_rewritten :
    ∃ clone, cloneElement sharedIdTree "p-".toList false = some clone ∧
      attrAt sharedIdTree [] idAttr = some "x".toList ∧
      attrAt sharedIdTree [1] forAttr = some "x".toList ∧
      "x".toList ∈ (rename "p-".toList (stripRoot false (cloneNode sharedIdTree)) []).2 ∧
      attrAt clone [1] forAttr = some "p-x".toList ∧
      attrAt clone [1] forAttr ≠ some "x".toList :=
  ⟨_, rfl, by decide, by decide, by decide, by decide, by decide⟩

/-- C13, amended. For every element tree, every value `r` that no element other than the root
carries as its id and that is not the id still found on the root once its first attribute named
`id` is removed (so the id of a root with a single id attribute, when no descendant shares it),
and every prefix `p`: in `cloneElement(el, p, false)` the value `r` is not in `renamedIDs` after
the rename pass, every `for` attribute equal to `r` still reads `r`, every `data-parent`,
`data-target` or `href` equal to `#r` still reads `#r`, and in every id-list attribute the text
written for a token `r` is `r` itself (the value is made of one space and the text written for
each token, as many as the original has tokens, followed by the trailing white space). -/
theorem cloneElement_stripped_root_refs (tag : JSString) (attrs : List Attr) (kids : List Node)
    (p r : JSString)
    (hother : ∀ pos, pos ≠ [] → attrAt (.element tag attrs kids) pos idAttr ≠ some r)
    (hsecond : getAttribute (removeAttribute attrs idAttr) idAttr ≠ some r) :
    r ∉ (rename p (stripRoot false (cloneNode (.element tag attrs kids))) []).2 ∧
    ∃ clone, cloneElement (.element tag attrs kids) p false = some clone ∧
      ∀ pos,
        (attrAt (.element tag attrs kids) pos forAttr = some r →
          attrAt clone pos forAttr = some r) ∧
        (∀ name ∈ selectorAttribs,
          attrAt (.element tag attrs kids) pos name = some ('#' :: r) →
          attrAt clone pos name = some ('#' :: r)) ∧
        (∀ name ∈ idListAttribs, ∀ v,
          attrAt (.element tag attrs kids) pos name = some v →
          ∃ ts : List JSString, ts.length = (tokens v).length ∧
            attrAt clone pos name =
              some ((ts.map (fun t => ' ' :: t)).flatten ++ trailingWhiteSpace v) ∧
            ∀ i : Nat, (tokens v)[i]? = some r → ts[i]? = some r) := by
  have hnot : r ∉ subtreeIds (stripRoot false (.element tag attrs kids)) := by
    intro hm
    obtain ⟨pos, hat, _⟩ := (mem_subtreeIds_iff r _).1 hm
    by_cases hp : pos = []
    · subst hp
      exact hsecond (by simpa [attrAt, nodeAt, stripRoot] using hat)
    · rw [attrAt_stripRoot false _ pos idAttr (Or.inl hp)] at hat
      exact hother pos hp hat
  refine ⟨?_, ?_⟩
  · rw [(rename_spec p).1]
    simpa [cloneNode] using hnot
  · obtain ⟨clone, hclone, _, hattr⟩ := cloneElement_attrs tag attrs kids p false
    refine ⟨clone, hclone, fun pos => ⟨?_, ?_, ?_⟩⟩
    · intro hfor
      rw [hattr pos forAttr (Or.inr (Or.inr (by decide))), hfor, Option.map_some',
        rewriteValue_for, if_neg (fun h => hnot h.2)]
    · intro name hname hsel
      rw [hattr pos name (Or.inr (Or.inr (ne_idAttr_of_mem name (Or.inr (Or.inl hname))))),
        hsel, Option.map_some', rewriteValue_selector p _ name _ hname,
        if_neg (fun h => hnot (by simpa using h.2))]
    · intro name hname v hv
      refine ⟨(tokens v).map (fun t =>
        if t ∈ subtreeIds (stripRoot false (.element tag attrs kids)) then p ++ t else t),
        by simp, ?_, ?_⟩
      · rw [hattr pos name (Or.inr (Or.inr (ne_idAttr_of_mem name (Or.inr (Or.inr hname))))),
          hv, Option.map_some', rewriteValue_idList p _ name v hname,
          replaceSpaceSeparated_replaceID]
      · intro i hi
        rw [List.getElem?_map, hi, Option.map_some', if_neg hnot]

/-- The statement of C13, amended, at the example tree with the prefix `p1-`: the hypotheses
hold for the root id `x`, and the `for="x"` of the label is kept. -/
theorem cloneElement_stripped_root_refs_witness :
    getAttribute [(idAttr, "x".toList)] idAttr = some "x".toList ∧
    (∀ pos, pos ≠ [] → attrAt exampleTree pos idAttr ≠ some "x".toList) ∧
    getAttribute (removeAttribute [(idAttr, "x".toList)] idAttr) idAttr ≠ some "x".toList ∧
    ∃ clone, cloneElement exampleTree "p1-".toList false = some clone ∧
      attrAt exampleTree [0] forAttr = some "x".toList ∧
      attrAt clone [0] forAttr = some "x".toList := by
  have hother : ∀ pos, pos ≠ [] → attrAt exampleTree pos idAttr ≠ some "x".toList := by
    intro pos hp hat
    have hm := mem_renamed_of_id "div".toList [(idAttr, "x".toList)]
      [ .element "label".toList [(forAttr, "x".toList)] [.text "t".toList],
        .element "span".toList [(idAttr, "y".toList), ("aria-controls".toList, "x y".toList)]
          [.text "s".toList] ]
      false pos "x".toList (fun h => absurd h hp) hat (by decide)
    revert hm
    decide
  obtain ⟨_, clone, hclone, hall⟩ :=
    cloneElement_stripped_root_refs "div".toList [(idAttr, "x".toList)]
      [ .element "label".toList [(forAttr, "x".toList)] [.text "t".toList],
        .element "span".toList [(idAttr, "y".toList), ("aria-controls".toList, "x y".toList)]
          [.text "s".toList] ]
      "p1-".toList "x".toList hother (by decide)
  exact ⟨by decide, hother, by decide, clone, hclone, by decide, (hall [0]).1 (by decide)⟩

/-! ## Theorems: the frame of `cloneElement` -/

theorem names_setAttribute (attrs : List Attr) (n v : JSString)
    (h : getAttribute attrs n ≠ none) :
    (setAttribute attrs n v).map Prod.fst = attrs.map Prod.fst := by
  induction attrs with
  | nil => simp [getAttribute] at h
  | cons a attrs ih =>
    obtain ⟨k, w⟩ := a
    by_cases hk : k = n
    · simp [setAttribute, hk]
    · simp only [getAttribute, hk, if_false] at h
      simp [setAttribute, hk, ih h]

theorem names_removeAttribute (attrs : List Attr) (n : JSString) :
    (removeAttribute attrs n).map Prod.fst = (attrs.map Prod.fst).erase n := by
  induction attrs with
  | nil => rfl
  | cons a attrs ih =>
    obtain ⟨k, w⟩ := a
    by_cases hk : k = n
    · simp [removeAttribute, hk]
    · simp [removeAttribute, hk, List.erase_cons, ih]

theorem names_renameAttrs (p : JSString) (attrs : List Attr) (R : List JSString) :
    (renameAttrs p attrs R).1.map Prod.fst = attrs.map Prod.fst := by
  unfold renameAttrs
  cases hg : getAttribute attrs idAttr with
  | none => rfl
  | some v =>
    by_cases hv : v = []
    · simp [hv]
    · simp only [ne_eq, hv, not_false_eq_true, if_true]
      exact names_setAttribute attrs idAttr _ (by simp [hg])

theorem names_fixFor (p : JSString) (R : List JSString) (attrs : List Attr) :
    (fixFor p R attrs).map Prod.fst = attrs.map Prod.fst := by
  unfold fixFor
  cases hg : getAttribute attrs forAttr with
  | none => rfl
  | some v =>
    dsimp only
    split_ifs
    · exact names_setAttribute attrs forAttr _ (by simp [hg])
    · rfl

theorem names_fixSelector (p : JSString) (R : List JSString) (attrs : List Attr)
    (n : JSString) : (fixSelector p R attrs n).map Prod.fst = attrs.map Prod.fst := by
  unfold fixSelector
  cases hg : getAttribute attrs n with
  | none => rfl
  | some v =>
    dsimp only
    split_ifs
    · exact names_setAttribute attrs n _ (by simp [hg])
    · rfl
    · rfl

theorem names_fixIdList (p : JSString) (R : List JSString) (attrs : List Attr)
    (n : JSString) : (fixIdList p R attrs n).map Prod.fst = attrs.map Prod.fst := by
  unfold fixIdList
  cases hg : getAttribute attrs n with
  | none => rfl
  | some v =>
    dsimp only
    split_ifs
    · exact names_setAttribute attrs n _ (by simp [hg])
    · rfl

theorem names_fixAttrs (p : JSString) (R : List JSString) (attrs : List Attr) :
    (fixAttrs p R attrs).map Prod.fst = attrs.map Prod.fst := by
  simp only [fixAttrs, idListAttribs, selectorAttribs, List.foldl, names_fixIdList,
    names_fixSelector, names_fixFor]

theorem rewriteValue_other (p : JSString) (R : List JSString) (name v : JSString)
    (h : name ∉ idAttr :: forAttr :: (selectorAttribs ++ idListAttribs)) :
    rewriteValue p R name v = v := by
  simp only [List.mem_cons, List.mem_append, not_or] at h
  obtain ⟨h1, h2, h3, h4⟩ := h
  simp only [rewriteValue, if_neg h1, if_neg h2, if_neg h3, if_neg h4]

theorem map_rewriteValue_other (p : JSString) (R : List JSString) (name : JSString)
    (o : Option JSString)
    (h : name ∉ idAttr :: forAttr :: (selectorAttribs ++ idListAttribs)) :
    o.map (rewriteValue p R name) = o := by
  cases o with
  | none => rfl
  | some v => rw [Option.map_some', rewriteValue_other p R name v h]

theorem length_mapAttrsList (f : List Attr → List Attr) (ns : List Node) :
    (mapAttrsList f ns).length = ns.length := by
  rw [mapAttrsList_eq_map, List.length_map]

/-- C14. For every element tree, prefix and flag, `cloneElement` returns a clone of the same
shape: at every position the clone has no node, the same text node, or an element of the same
tag and the same number of children as the original there.  The attribute names of each element
are those of the original, in the same order, except that `removeAttribute('id')` has acted on
the root when `renameRoot` is false (so a root with pairwise distinct attribute names has lost
its id and nothing else); and every attribute other than `id`, `for`, `data-parent`,
`data-target`, `href`, `aria-controls`, `aria-describedby` and `aria-labelledby` has the value
it has in the original. -/
theorem cloneElement_frame (tag : JSString) (attrs : List Attr) (kids : List Node)
    (p : JSString) (renameRoot : Bool) :
    ∃ clone, cloneElement (.element tag attrs kids) p renameRoot = some clone ∧
      ∀ pos,
        (nodeAt pos (.element tag attrs kids) = none → nodeAt pos clone = none) ∧
        (∀ d, nodeAt pos (.element tag attrs kids) = some (.text d) →
          nodeAt pos clone = some (.text d)) ∧
        (∀ t a k, nodeAt pos (.element tag attrs kids) = some (.element t a k) →
          ∃ a2 k2, nodeAt pos clone = some (.element t a2 k2) ∧
            k2.length = k.length ∧
            a2.map Prod.fst =
              (if pos = [] ∧ renameRoot = false then (a.map Prod.fst).erase idAttr
               else a.map Prod.fst) ∧
            (distinctNames a → pos = [] → renameRoot = false → idAttr ∉ a2.map Prod.fst) ∧
            ∀ name, name ∉ idAttr :: forAttr :: (selectorAttribs ++ idListAttribs) →
              getAttribute a2 name = getAttribute a name) := by
  refine ⟨_, cloneElement_eq tag attrs kids p renameRoot, fun pos => ?_⟩
  rw [nodeAt_mapAttrs, nodeAt_mapAttrs]
  by_cases hp : pos = []
  · subst hp
    refine ⟨fun h => by simp [nodeAt] at h, fun d h => by simp [nodeAt] at h, ?_⟩
    intro t a k h
    simp only [nodeAt, Option.some.injEq, Node.element.injEq] at h
    obtain ⟨rfl, rfl, rfl⟩ := h
    cases renameRoot with
    | true =>
      refine ⟨_, _, rfl, length_mapAttrsList _ _ |>.trans (length_mapAttrsList _ _), ?_,
        fun _ _ h => absurd h (by decide), ?_⟩
      · rw [names_fixAttrs, names_renameAttrs]; simp
      · intro name hname
        rw [getAttribute_rewritten, map_rewriteValue_other p _ name _ hname]
    | false =>
      refine ⟨_, _, rfl, length_mapAttrsList _ _ |>.trans (length_mapAttrsList _ _), ?_, ?_, ?_⟩
      · rw [names_fixAttrs, names_renameAttrs, names_removeAttribute]; simp
      · intro hd _ _
        rw [names_fixAttrs, names_renameAttrs, names_removeAttribute]
        intro hm
        exact ((List.Nodup.mem_erase_iff hd).1 hm).1 rfl
      · intro name hname
        have hne : name ≠ idAttr := fun e => hname (by simp [e])
        rw [getAttribute_rewritten, map_rewriteValue_other p _ name _ hname,
          getAttribute_removeAttribute_ne attrs idAttr name hne]
  · rw [nodeAt_stripRoot renameRoot _ pos hp]
    refine ⟨fun h => by rw [h]; rfl, fun d h => by rw [h]; rfl, ?_⟩
    intro t a k h
    rw [h]
    refine ⟨_, _, rfl, length_mapAttrsList _ _ |>.trans (length_mapAttrsList _ _), ?_,
      fun _ h => absurd h hp, ?_⟩
    · rw [names_fixAttrs, names_renameAttrs, if_neg (fun h => hp h.1)]
    · intro name hname
      rw [getAttribute_rewritten, map_rewriteValue_other p _ name _ hname]

/-! ## Theorems: `cloneElement` on the store -/

theorem length_writeAttrs (σ : Store) (i : Nat) (a : List Attr) :
    (writeAttrs σ i a).length = σ.length := by
  induction σ generalizing i with
  | nil => rfl
  | cons c σ ih => cases i <;> simp [writeAttrs, ih]

theorem getElem?_writeAttrs_ne (σ : Store) (i j : Nat) (a : List Attr) (h : j ≠ i) :
    (writeAttrs σ i a)[j]? = σ[j]? := by
  induction σ generalizing i j with
  | nil => rfl
  | cons c σ ih =>
    cases i with
    | zero =>
      cases j with
      | zero => exact absurd rfl h
      | succ j => simp [writeAttrs]
    | succ i =>
      cases j with
      | zero => simp [writeAttrs]
      | succ j =>
        simp only [writeAttrs, List.getElem?_cons_succ]
        exact ih i j (fun e => h (by rw [e]))

theorem getElem?_writeAttrs_kids (σ : Store) (i j : Nat) (a : List Attr) (d : Cell)
    (h : (writeAttrs σ i a)[j]? = some d) : ∃ c, σ[j]? = some c ∧ c.kids = d.kids := by
  induction σ generalizing i j with
  | nil => simp [writeAttrs] at h
  | cons c σ ih =>
    cases i with
    | zero =>
      cases j with
      | zero =>
        simp only [writeAttrs, List.getElem?_cons_zero, Option.some.injEq] at h
        exact ⟨c, by simp, by rw [← h]⟩
      | succ j => exact ⟨d, by simpa [writeAttrs] using h, rfl⟩
    | succ i =>
      cases j with
      | zero => exact ⟨d, by simpa [writeAttrs] using h, rfl⟩
      | succ j =>
        simp only [writeAttrs, List.getElem?_cons_succ] at h
        simpa using ih i j h

theorem fresh_writeAttrs (n0 : Nat) (σ : Store) (i : Nat) (a : List Attr) (h : Fresh n0 σ) :
    Fresh n0 (writeAttrs σ i a) := by
  intro j d hj hd k hk
  obtain ⟨c, hc, hkids⟩ := getElem?_writeAttrs_kids σ i j a d hd
  exact h j c hj hc k (by rw [hkids]; exact hk)

theorem fresh_of_length_le (σ : Store) : Fresh σ.length σ := by
  intro i c hi hc
  have : σ[i]? = none := List.getElem?_eq_none_iff.2 hi
  rw [this] at hc
  exact Option.noConfusion hc

theorem fresh_append (n0 : Nat) (σ : Store) (c : Cell) (h : Fresh n0 σ)
    (hc : ∀ k ∈ c.kids, n0 ≤ k) : Fresh n0 (σ ++ [c]) := by
  intro i d hi hd
  by_cases hlt : i < σ.length
  · rw [List.getElem?_append_left hlt] at hd
    exact h i d hi hd
  · by_cases heq : i = σ.length
    · subst heq
      have : d = c := by simpa using hd.symm
      subst this
      exact hc
    · have : (σ ++ [c])[i]? = none := by
        apply List.getElem?_eq_none_iff.2
        simp only [List.length_append, List.length_singleton]
        omega
      rw [this] at hd
      exact Option.noConfusion hd

theorem cloneKids_fold (n0 : Nat) (f : Store → Nat → Store × Nat)
    (hf : ∀ σ node, n0 ≤ σ.length → Fresh n0 σ →
      σ.length ≤ (f σ node).1.length ∧ Fresh n0 (f σ node).1 ∧
      (∀ i, i < σ.length → (f σ node).1[i]? = σ[i]?) ∧ σ.length ≤ (f σ node).2)
    (kids : List Nat) :
    ∀ acc : Store × List Nat, n0 ≤ acc.1.length → Fresh n0 acc.1 → (∀ k ∈ acc.2, n0 ≤ k) →
      acc.1.length ≤
        (kids.foldl (fun (acc : Store × List Nat) kid =>
          ((f acc.1 kid).1, acc.2 ++ [(f acc.1 kid).2])) acc).1.length ∧
      Fresh n0
        (kids.foldl (fun (acc : Store × List Nat) kid =>
          ((f acc.1 kid).1, acc.2 ++ [(f acc.1 kid).2])) acc).1 ∧
      (∀ i, i < acc.1.length →
        (kids.foldl (fun (acc : Store × List Nat) kid =>
          ((f acc.1 kid).1, acc.2 ++ [(f acc.1 kid).2])) acc).1[i]? = acc.1[i]?) ∧
      ∀ k ∈ (kids.foldl (fun (acc : Store × List Nat) kid =>
          ((f acc.1 kid).1, acc.2 ++ [(f acc.1 kid).2])) acc).2, n0 ≤ k := by
  induction kids with
  | nil =>
    intro acc _ hfresh hk
    exact ⟨Nat.le_refl _, hfresh, fun _ _ => rfl, hk⟩
  | cons kid kids ih =>
    intro acc hlen hfresh hk
    obtain ⟨h1, h2, h3, h4⟩ := hf acc.1 kid hlen hfresh
    have hk' : ∀ k ∈ acc.2 ++ [(f acc.1 kid).2], n0 ≤ k := by
      intro k hmem
      rcases List.mem_append.1 hmem with hmem | hmem
      · exact hk k hmem
      · have : k = (f acc.1 kid).2 := by simpa using hmem
        omega
    obtain ⟨g1, g2, g3, g4⟩ :=
      ih ((f acc.1 kid).1, acc.2 ++ [(f acc.1 kid).2]) (Nat.le_trans hlen h1) h2 hk'
    simp only [List.foldl_cons]
    refine ⟨Nat.le_trans h1 g1, g2, ?_, g4⟩
    intro i hi
    rw [g3 i (Nat.lt_of_lt_of_le hi h1), h3 i hi]

theorem cloneNodeIn_spec (n0 : Nat) (fuel : Nat) :
    ∀ (σ : Store) (node : Nat), n0 ≤ σ.length → Fresh n0 σ →
      σ.length ≤ (cloneNodeIn fuel σ node).1.length ∧ Fresh n0 (cloneNodeIn fuel σ node).1 ∧
      (∀ i, i < σ.length → (cloneNodeIn fuel σ node).1[i]? = σ[i]?) ∧
      σ.length ≤ (cloneNodeIn fuel σ node).2 := by
  induction fuel with
  | zero =>
    intro σ node hlen hfresh
    cases hc : σ[node]? with
    | none =>
      have e : cloneNodeIn 0 σ node = (σ, node) := by simp only [cloneNodeIn, hc]
      rw [e]
      exact ⟨Nat.le_refl _, hfresh, fun _ _ => rfl, List.getElem?_eq_none_iff.1 hc⟩
    | some c =>
      have e : cloneNodeIn 0 σ node = (σ ++ [{ c with kids := [] }], σ.length) := by
        simp only [cloneNodeIn, hc]
      rw [e]
      refine ⟨by simp, fresh_append n0 σ _ hfresh (by simp), ?_, Nat.le_refl _⟩
      intro i hi
      exact List.getElem?_append_left hi
  | succ fuel ih =>
    intro σ node hlen hfresh
    cases hc : σ[node]? with
    | none =>
      have e : cloneNodeIn (fuel + 1) σ node = (σ, node) := by simp only [cloneNodeIn, hc]
      rw [e]
      exact ⟨Nat.le_refl _, hfresh, fun _ _ => rfl, List.getElem?_eq_none_iff.1 hc⟩
    | some c =>
      obtain ⟨g1, g2, g3, g4⟩ :=
        cloneKids_fold n0 (cloneNodeIn fuel) ih c.kids (σ, []) hlen hfresh (by simp)
      have e : cloneNodeIn (fuel + 1) σ node =
          ((c.kids.foldl (fun (acc : Store × List Nat) kid =>
              ((cloneNodeIn fuel acc.1 kid).1, acc.2 ++ [(cloneNodeIn fuel acc.1 kid).2]))
              (σ, [])).1 ++
            [{ c with kids := (c.kids.foldl (fun (acc : Store × List Nat) kid =>
              ((cloneNodeIn fuel acc.1 kid).1, acc.2 ++ [(cloneNodeIn fuel acc.1 kid).2]))
              (σ, [])).2 }],
           (c.kids.foldl (fun (acc : Store × List Nat) kid =>
              ((cloneNodeIn fuel acc.1 kid).1, acc.2 ++ [(cloneNodeIn fuel acc.1 kid).2]))
              (σ, [])).1.length) := by
        simp only [cloneNodeIn, hc]
      rw [e]
      refine ⟨?_, fresh_append n0 _ _ g2 g4, ?_, g1⟩
      · simp only [List.length_append, List.length_singleton]
        exact Nat.le_succ_of_le g1
      · intro i hi
        rw [List.getElem?_append_left (Nat.lt_of_lt_of_le hi g1)]
        exact g3 i hi

theorem cloneNodeIn_lt (fuel : Nat) (σ : Store) (node : Nat) (c : Cell)
    (hc : σ[node]? = some c) :
    (cloneNodeIn fuel σ node).2 < (cloneNodeIn fuel σ node).1.length := by
  cases fuel <;> simp [cloneNodeIn, hc]

theorem walkKids_fold {S : Type} (n0 : Nat) (f : Store → Nat → S → Store × S)
    (hf : ∀ σ node s, n0 ≤ node → Fresh n0 σ →
      Fresh n0 (f σ node s).1 ∧ (f σ node s).1.length = σ.length ∧
      ∀ i, i < n0 → (f σ node s).1[i]? = σ[i]?)
    (kids : List Nat) (hk : ∀ k ∈ kids, n0 ≤ k) :
    ∀ acc : Store × S, Fresh n0 acc.1 →
      Fresh n0 (kids.foldl (fun (acc : Store × S) kid => f acc.1 kid acc.2) acc).1 ∧
      (kids.foldl (fun (acc : Store × S) kid => f acc.1 kid acc.2) acc).1.length =
        acc.1.length ∧
      ∀ i, i < n0 →
        (kids.foldl (fun (acc : Store × S) kid => f acc.1 kid acc.2) acc).1[i]? = acc.1[i]? := by
  induction kids with
  | nil =>
    intro acc hfresh
    exact ⟨hfresh, rfl, fun _ _ => rfl⟩
  | cons kid kids ih =>
    intro acc hfresh
    obtain ⟨h1, h2, h3⟩ := hf acc.1 kid acc.2 (hk kid (by simp)) hfresh
    obtain ⟨g1, g2, g3⟩ :=
      ih (fun k hmem => hk k (List.mem_cons_of_mem _ hmem)) (f acc.1 kid acc.2) h1
    simp only [List.foldl_cons]
    refine ⟨g1, g2.trans h2, ?_⟩
    intro i hi
    rw [g3 i hi, h3 i hi]

theorem walkIn_spec {S : Type} (body : List Attr → S → List Attr × S) (n0 : Nat) (fuel : Nat) :
    ∀ (σ : Store) (node : Nat) (s : S), n0 ≤ node → Fresh n0 σ →
      Fresh n0 (walkIn body fuel σ node s).1 ∧
      (walkIn body fuel σ node s).1.length = σ.length ∧
      ∀ i, i < n0 → (walkIn body fuel σ node s).1[i]? = σ[i]? := by
  induction fuel with
  | zero =>
    intro σ node s _ hfresh
    exact ⟨hfresh, rfl, fun _ _ => rfl⟩
  | succ fuel ih =>
    intro σ node s hnode hfresh
    cases hc : σ[node]? with
    | none =>
      have e : walkIn body (fuel + 1) σ node s = (σ, s) := by simp only [walkIn, hc]
      rw [e]
      exact ⟨hfresh, rfl, fun _ _ => rfl⟩
    | some c =>
      cases he : c.isElement with
      | false =>
        have e : walkIn body (fuel + 1) σ node s = (σ, s) := by
          simp only [walkIn, hc, he, Bool.false_eq_true, if_false]
        rw [e]
        exact ⟨hfresh, rfl, fun _ _ => rfl⟩
      | true =>
        have e : walkIn body (fuel + 1) σ node s =
            c.kids.foldl (fun (acc : Store × S) kid => walkIn body fuel acc.1 kid acc.2)
              (writeAttrs σ node (body c.attrs s).1, (body c.attrs s).2) := by
          simp only [walkIn, hc, he, if_true]
        rw [e]
        obtain ⟨g1, g2, g3⟩ :=
          walkKids_fold n0 (walkIn body fuel) ih c.kids (hfresh node c hnode hc)
            (writeAttrs σ node (body c.attrs s).1, (body c.attrs s).2)
            (fresh_writeAttrs n0 σ node _ hfresh)
        refine ⟨g1, g2.trans (length_writeAttrs _ _ _), ?_⟩
        intro i hi
        rw [g3 i hi]
        exact getElem?_writeAttrs_ne σ node i _ (by omega)

theorem stripRootIn_spec (renameRoot : Bool) (n0 : Nat) (σ : Store) (clone : Nat)
    (hclone : n0 ≤ clone) (hfresh : Fresh n0 σ) :
    Fresh n0 (stripRootIn renameRoot σ clone) ∧
    (stripRootIn renameRoot σ clone).length = σ.length ∧
    ∀ i, i < n0 → (stripRootIn renameRoot σ clone)[i]? = σ[i]? := by
  unfold stripRootIn
  cases renameRoot with
  | true => exact ⟨hfresh, rfl, fun _ _ => rfl⟩
  | false =>
    cases hc : σ[clone]? with
    | none => exact ⟨hfresh, rfl, fun _ _ => rfl⟩
    | some c =>
      refine ⟨fresh_writeAttrs n0 σ clone _ hfresh, length_writeAttrs _ _ _, ?_⟩
      intro i hi
      exact getElem?_writeAttrs_ne σ clone i _ (by omega)

theorem renameIn_spec (p : JSString) (n0 : Nat) (σ : Store) (node : Nat)
    (hnode : n0 ≤ node) (hfresh : Fresh n0 σ) (fuel : Nat) (R : List JSString) :
    Fresh n0 (renameIn p fuel σ node R).1 ∧
    (renameIn p fuel σ node R).1.length = σ.length ∧
    ∀ i, i < n0 → (renameIn p fuel σ node R).1[i]? = σ[i]? :=
  walkIn_spec (renameAttrs p) n0 fuel σ node R hnode hfresh

theorem fixIDReferencesIn_spec (p : JSString) (n0 : Nat) (σ : Store) (node : Nat)
    (hnode : n0 ≤ node) (hfresh : Fresh n0 σ) (R : List JSString) (fuel : Nat) :
    (fixIDReferencesIn p R fuel σ node).length = σ.length ∧
    ∀ i, i < n0 → (fixIDReferencesIn p R fuel σ node)[i]? = σ[i]? :=
  (walkIn_spec (fun attrs (_ : Unit) => (fixAttrs p R attrs, ())) n0 fuel σ node () hnode
    hfresh).2

/-- C16. With the DOM as an explicit store: for every store, every element `el` of it, every
prefix and either flag, `cloneElement` returns a store and a clone such that the clone is a node
that did not exist before the call and every node that existed before the call, `el` and its
descendants among them, has exactly the attributes and children it had: every write of the call
goes to a node allocated by `cloneNode(true)`. -/
theorem cloneElementIn_frame (σ : Store) (el : Nat) (c : Cell) (p : JSString)
    (renameRoot : Bool) (hel : σ[el]? = some c) (helem : c.isElement = true) :
    ∃ σ2 clone, cloneElementIn σ el p renameRoot = some (σ2, clone) ∧
      σ.length ≤ clone ∧ clone < σ2.length ∧
      ∀ i, i < σ.length → σ2[i]? = σ[i]? := by
  obtain ⟨_, c2, c3, c4⟩ :=
    cloneNodeIn_spec σ.length σ.length σ el (Nat.le_refl _) (fresh_of_length_le σ)
  have c5 := cloneNodeIn_lt σ.length σ el c hel
  obtain ⟨s1, s2, s3⟩ := stripRootIn_spec renameRoot σ.length _ _ c4 c2
  have hr := renameIn_spec p σ.length _ _ c4 s1
  have hres : cloneElementIn σ el p renameRoot =
      some (fixIDReferencesIn p
        (renameIn p
          (stripRootIn renameRoot (cloneNodeIn σ.length σ el).1
            (cloneNodeIn σ.length σ el).2).length
          (stripRootIn renameRoot (cloneNodeIn σ.length σ el).1 (cloneNodeIn σ.length σ el).2)
          (cloneNodeIn σ.length σ el).2 []).2
        (renameIn p
          (stripRootIn renameRoot (cloneNodeIn σ.length σ el).1
            (cloneNodeIn σ.length σ el).2).length
          (stripRootIn renameRoot (cloneNodeIn σ.length σ el).1 (cloneNodeIn σ.length σ el).2)
          (cloneNodeIn σ.length σ el).2 []).1.length
        (renameIn p
          (stripRootIn renameRoot (cloneNodeIn σ.length σ el).1
            (cloneNodeIn σ.length σ el).2).length
          (stripRootIn renameRoot (cloneNodeIn σ.length σ el).1 (cloneNodeIn σ.length σ el).2)
          (cloneNodeIn σ.length σ el).2 []).1
        (cloneNodeIn σ.length σ el).2, (cloneNodeIn σ.length σ el).2) := by
    simp only [cloneElementIn, hel, helem, if_true]
  refine ⟨_, _, hres, c4, ?_, ?_⟩
  · rw [(fixIDReferencesIn_spec p σ.length _ _ c4 (hr _ _).1 _ _).1, (hr _ _).2.1, s2]
    exact c5
  · intro i hi
    rw [(fixIDReferencesIn_spec p σ.length _ _ c4 (hr _ _).1 _ _).2 i hi, (hr _ _).2.2 i hi,
      s3 i hi, c3 i hi]

/-- The statement of C16 at a store that holds the tree of the worked example: node 4 is an
element; the clone is the new node 9; the five nodes of the original are unchanged and still
read as the example tree; and the tree read from the clone is the result of `cloneElement` in
the tree model. -/
theorem cloneElementIn_frame_witness :
    exampleStore[4]? = some ⟨true, "div".toList, [(idAttr, "x".toList)], [1, 3]⟩ ∧
    treeOf 5 exampleStore 4 = some exampleTree ∧
    ∃ σ2 clone, cloneElementIn exampleStore 4 "p1-".toList true = some (σ2, clone) ∧
      clone = 9 ∧
      (∀ i, i < exampleStore.length → σ2[i]? = exampleStore[i]?) ∧
      treeOf 10 σ2 4 = some exampleTree ∧
      treeOf 10 σ2 clone = cloneElement exampleTree "p1-".toList true := by
  obtain ⟨σ2, clone, h, _, _, hframe⟩ :=
    cloneElementIn_frame exampleStore 4 ⟨true, "div".toList, [(idAttr, "x".toList)], [1, 3]⟩
      "p1-".toList true rfl rfl
  have h2 : cloneElementIn exampleStore 4 "p1-".toList true =
      some ((cloneElementIn exampleStore 4 "p1-".toList true).get rfl) := by simp
  rw [h2] at h
  injection h with h
  have hσ : σ2 = ((cloneElementIn exampleStore 4 "p1-".toList true).get rfl).1 := by rw [h]
  have hc : clone = ((cloneElementIn exampleStore 4 "p1-".toList true).get rfl).2 := by rw [h]
  refine ⟨rfl, rfl, σ2, clone, by rw [h2, h], ?_, hframe, ?_, ?_⟩
  · rw [hc]; rfl
  · rw [hσ]; rfl
  · rw [hσ, hc]; rfl
